import Mathlib

/-!
Rheap: binary-heap primitives on numeric arrays (`src/heap.c`).

A shallow embedding of the C heap routines of the Rheap package, and the
properties of them that the specification states.

Modelling conventions:

* A `double *` buffer of `n` cells is a `List α` of length `n`; the element type
  `α` is an arbitrary linear order (the comparisons `<`, `>`, `<=`, `>=` of the C
  code are the ones of that order, so the not-a-number value of IEEE-754, which
  is outside every total order, is outside the model).
* Heap positions are 1-based as in the source and at least `1`: the C expression
  `x[p-1]` is `at1 x p`, the assignment `x[p-1] = v` is `put1 x p v`.  Every claim
  below is stated for inputs on which each read and write of the C code is
  inside the buffer; an access outside of it has no defined meaning in C (here
  such a read yields `default` and such a write is dropped).
* Cells handed out by `allocVector` / `R_alloc` before they are written hold
  `default`.
* `while` loops are structural recursions on a fuel argument; the entry points
  supply a fuel that the loop can never use up (`upheap_min_loop_fuel`,
  `dnheap_min_loop_fuel`), so that the model is the loop run to its `break`.
  `for` loops are recursions on the number of remaining iterations.
* `R_NilValue` results are `none`; two-element result lists are pairs.
* Counts, positions and sizes that reach a function through `asInteger` are
  integers (`Int`); inside the static loops, which are only modelled for
  positions of at least `1`, they are natural numbers.
* Where the specification describes an operation by other operations (the batch
  operations as a fold of the single-value ones), the description is a second
  definition (`fold_pushpop_min`, ...) that the source function is compared with.
* The `_max` functions are translated from their own source text; they are then
  shown to be the `_min` functions over the reversed order (`*_eq_dual`), so that
  each property is proved once.
-/

set_option linter.unusedSectionVars false
set_option linter.unusedVariables false

namespace Rheap

variable {α : Type} [LinearOrder α] [Inhabited α]

/-! ## Buffers -/

/-- Value at the 1-based position `p`: the C expression `x[p-1]`. -/
def at1 (x : List α) (p : Nat) : α := x.getD (p - 1) default

/-- Assignment `x[p-1] = v` at the 1-based position `p`. -/
def put1 (x : List α) (p : Nat) (v : α) : List α := x.set (p - 1) v

/-- Exchange of the cells at the 1-based positions `a` and `b`:
`tmp = x[a-1]; x[a-1] = x[b-1]; x[b-1] = tmp`. -/
def swap1 (x : List α) (a b : Nat) : List α :=
  put1 (put1 x a (at1 x b)) b (at1 x a)

/-! ## Core heap operations (`heap.c` lines 6-80) -/

/-- Loop of `upheap_min` (lines 7-17). -/
def upheap_min_loop : Nat → List α → Nat → List α
  | 0, x, _ => x
  | fuel + 1, x, pos =>
    if 1 < pos then
      let parent := pos / 2
      if at1 x pos < at1 x parent then
        upheap_min_loop fuel (swap1 x parent pos) parent
      else x
    else x

/-- Sift-up for a min-heap: `upheap_min` (lines 6-18). -/
def upheap_min (x : List α) (pos : Nat) : List α := upheap_min_loop pos x pos

/-- Loop of `upheap_max` (lines 21-31). -/
def upheap_max_loop : Nat → List α → Nat → List α
  | 0, x, _ => x
  | fuel + 1, x, pos =>
    if 1 < pos then
      let parent := pos / 2
      if at1 x pos > at1 x parent then
        upheap_max_loop fuel (swap1 x parent pos) parent
      else x
    else x

/-- Sift-up for a max-heap: `upheap_max` (lines 20-32). -/
def upheap_max (x : List α) (pos : Nat) : List α := upheap_max_loop pos x pos

/-- The position `smallest` chosen by one round of `dnheap_min` (lines 36-45). -/
def dn_min_choice (x : List α) (pos size : Nat) : Nat :=
  let smallest := pos
  let left := 2 * pos
  let right := 2 * pos + 1
  let smallest := if left ≤ size ∧ at1 x left < at1 x smallest then left else smallest
  let smallest := if right ≤ size ∧ at1 x right < at1 x smallest then right else smallest
  smallest

/-- Loop of `dnheap_min` (lines 35-55). -/
def dnheap_min_loop : Nat → List α → Nat → Nat → List α
  | 0, x, _, _ => x
  | fuel + 1, x, pos, size =>
    let smallest := dn_min_choice x pos size
    if smallest ≠ pos then
      dnheap_min_loop fuel (swap1 x pos smallest) smallest size
    else x

/-- Sift-down for a min-heap: `dnheap_min` (lines 34-56). -/
def dnheap_min (x : List α) (pos size : Nat) : List α :=
  dnheap_min_loop size x pos size

/-- The position `largest` chosen by one round of `dnheap_max` (lines 60-69). -/
def dn_max_choice (x : List α) (pos size : Nat) : Nat :=
  let largest := pos
  let left := 2 * pos
  let right := 2 * pos + 1
  let largest := if left ≤ size ∧ at1 x left > at1 x largest then left else largest
  let largest := if right ≤ size ∧ at1 x right > at1 x largest then right else largest
  largest

/-- Loop of `dnheap_max` (lines 59-79). -/
def dnheap_max_loop : Nat → List α → Nat → Nat → List α
  | 0, x, _, _ => x
  | fuel + 1, x, pos, size =>
    let largest := dn_max_choice x pos size
    if largest ≠ pos then
      dnheap_max_loop fuel (swap1 x pos largest) largest size
    else x

/-- Sift-down for a max-heap: `dnheap_max` (lines 58-80). -/
def dnheap_max (x : List α) (pos size : Nat) : List α :=
  dnheap_max_loop size x pos size

/-! ## Build (`C_minheap`, `C_maxheap`, lines 83-117) -/

/-- Floyd loop `for (i = n/2; i >= 1; i--) dnheap_min(heap, i, n)`; the second
argument is the current value of `i`. -/
def minheap_loop (n : Nat) : Nat → List α → List α
  | 0, heap => heap
  | i + 1, heap => minheap_loop n i (dnheap_min heap (i + 1) n)

/-- Build a min-heap: `C_minheap` (lines 83-99). -/
def C_minheap (x : List α) : List α :=
  let n := x.length
  if n = 0 then x else minheap_loop n (n / 2) x

/-- Floyd loop `for (i = n/2; i >= 1; i--) dnheap_max(heap, i, n)`. -/
def maxheap_loop (n : Nat) : Nat → List α → List α
  | 0, heap => heap
  | i + 1, heap => maxheap_loop n i (dnheap_max heap (i + 1) n)

/-- Build a max-heap: `C_maxheap` (lines 101-117). -/
def C_maxheap (x : List α) : List α :=
  let n := x.length
  if n = 0 then x else maxheap_loop n (n / 2) x

/-! ## Push (`C_push_minheap`, `C_push_maxheap`, lines 119-163) -/

/-- Loop `for (i = 0; i < m; i++) { x[n+i] = vals[i]; upheap_min(x, n+i+1); }`;
the list argument holds `vals[i], vals[i+1], ...`. -/
def push_min_loop (n : Nat) : List α → Nat → List α → List α
  | [], _, x => x
  | v :: vals, i, x =>
    push_min_loop n vals (i + 1) (upheap_min (put1 x (n + i + 1) v) (n + i + 1))

/-- Push values on a min-heap: `C_push_minheap` (lines 119-140).  The result
buffer has `n + m` cells, the first `n` copied from `heap`. -/
def C_push_minheap (heap values : List α) : List α :=
  let n := heap.length
  let m := values.length
  let x := heap ++ List.replicate m default
  push_min_loop n values 0 x

/-- Loop `for (i = 0; i < m; i++) { x[n+i] = vals[i]; upheap_max(x, n+i+1); }`. -/
def push_max_loop (n : Nat) : List α → Nat → List α → List α
  | [], _, x => x
  | v :: vals, i, x =>
    push_max_loop n vals (i + 1) (upheap_max (put1 x (n + i + 1) v) (n + i + 1))

/-- Push values on a max-heap: `C_push_maxheap` (lines 142-163). -/
def C_push_maxheap (heap values : List α) : List α :=
  let n := heap.length
  let m := values.length
  let x := heap ++ List.replicate m default
  push_max_loop n values 0 x

/-! ## Pop (`C_pop_minheap`, `C_pop_maxheap`, lines 165-253) -/

/-- The count `k` after the guard and the clamp of lines 168-169, for a heap of
`n` cells; `none` when the function returns `R_NilValue`. -/
def pop_count (n : Nat) (count : Int) : Option Nat :=
  if n = 0 ∨ count ≤ 0 then none
  else if count > (n : Int) then some n else some count.toNat

/-- Extraction loop of `C_pop_minheap` (lines 191-197): the first argument is
the number of rounds still to run, `i` the loop counter; the state is the pair
of `val_data` and `work_heap`. -/
def pop_min_loop (n : Nat) : Nat → Nat → List α × List α → List α × List α
  | 0, _, s => s
  | r + 1, i, (val_data, work_heap) =>
    let val_data := val_data.set i (at1 work_heap 1)
    let work_heap := put1 work_heap 1 (at1 work_heap (n - i))
    pop_min_loop n r (i + 1) (val_data, dnheap_min work_heap 1 (n - i - 1))

/-- Extract the `k` smallest values: `C_pop_minheap` (lines 165-208); the result
is the pair of `values` and `heap`, `none` for `R_NilValue`. -/
def C_pop_minheap (heap : List α) (count : Int) : Option (List α × List α) :=
  let n := heap.length
  match pop_count n count with
  | none => none
  | some k =>
    let s := pop_min_loop n k 0 (List.replicate k default, heap)
    some (s.1, s.2.take (n - k))

/-- Extraction loop of `C_pop_maxheap` (lines 236-242). -/
def pop_max_loop (n : Nat) : Nat → Nat → List α × List α → List α × List α
  | 0, _, s => s
  | r + 1, i, (val_data, work_heap) =>
    let val_data := val_data.set i (at1 work_heap 1)
    let work_heap := put1 work_heap 1 (at1 work_heap (n - i))
    pop_max_loop n r (i + 1) (val_data, dnheap_max work_heap 1 (n - i - 1))

/-- Extract the `k` largest values: `C_pop_maxheap` (lines 210-253). -/
def C_pop_maxheap (heap : List α) (count : Int) : Option (List α × List α) :=
  let n := heap.length
  match pop_count n count with
  | none => none
  | some k =>
    let s := pop_max_loop n k 0 (List.replicate k default, heap)
    some (s.1, s.2.take (n - k))

/-! ## Bounded insert (`C_insert_minheap`, `C_insert_maxheap`, lines 255-317) -/

/-- Scan `for (i = first_leaf + 1; i <= n; i++)` of lines 270-275: the first
argument is the number of rounds still to run, the state is the pair of
`max_leaf` and `max_pos`. -/
def max_leaf_loop (x : List α) : Nat → Nat → α × Nat → α × Nat
  | 0, _, s => s
  | r + 1, i, (max_leaf, max_pos) =>
    if at1 x i > max_leaf then max_leaf_loop x r (i + 1) (at1 x i, i)
    else max_leaf_loop x r (i + 1) (max_leaf, max_pos)

/-- The largest leaf and its position, as computed by lines 265-275. -/
def max_leaf_scan (x : List α) : α × Nat :=
  let n := x.length
  let first_leaf := n / 2 + 1
  max_leaf_loop x (n - first_leaf) (first_leaf + 1) (at1 x first_leaf, first_leaf)

/-- Replace the largest leaf when the candidate is smaller:
`C_insert_minheap` (lines 255-285). -/
def C_insert_minheap (heap : List α) (val : α) : List α :=
  let n := heap.length
  if n = 0 then heap
  else
    let x := heap
    let (max_leaf, max_pos) := max_leaf_scan x
    if val < max_leaf then upheap_min (put1 x max_pos val) max_pos else x

/-- Scan `for (i = first_leaf + 1; i <= n; i++)` of lines 302-307. -/
def min_leaf_loop (x : List α) : Nat → Nat → α × Nat → α × Nat
  | 0, _, s => s
  | r + 1, i, (min_leaf, min_pos) =>
    if at1 x i < min_leaf then min_leaf_loop x r (i + 1) (at1 x i, i)
    else min_leaf_loop x r (i + 1) (min_leaf, min_pos)

/-- The smallest leaf and its position, as computed by lines 297-307. -/
def min_leaf_scan (x : List α) : α × Nat :=
  let n := x.length
  let first_leaf := n / 2 + 1
  min_leaf_loop x (n - first_leaf) (first_leaf + 1) (at1 x first_leaf, first_leaf)

/-- Replace the smallest leaf when the candidate is larger:
`C_insert_maxheap` (lines 287-317). -/
def C_insert_maxheap (heap : List α) (val : α) : List α :=
  let n := heap.length
  if n = 0 then heap
  else
    let x := heap
    let (min_leaf, min_pos) := min_leaf_scan x
    if val > min_leaf then upheap_max (put1 x min_pos val) min_pos else x

/-! ## Pushpop and poppush (lines 319-455) -/

/-- Conditional replace-root on a min-heap: `C_pushpop_minheap` (lines 319-357);
the result is the pair of the extracted value and the heap. -/
def C_pushpop_minheap (heap : List α) (val : α) : α × List α :=
  let n := heap.length
  if n = 0 then (val, heap)
  else if val ≤ at1 heap 1 then (val, heap)
  else (at1 heap 1, dnheap_min (put1 heap 1 val) 1 n)

/-- Conditional replace-root on a max-heap: `C_pushpop_maxheap` (lines 359-397). -/
def C_pushpop_maxheap (heap : List α) (val : α) : α × List α :=
  let n := heap.length
  if n = 0 then (val, heap)
  else if val ≥ at1 heap 1 then (val, heap)
  else (at1 heap 1, dnheap_max (put1 heap 1 val) 1 n)

/-- Unconditional replace-root on a min-heap: `C_poppush_minheap` (lines 399-426). -/
def C_poppush_minheap (heap : List α) (val : α) : α × List α :=
  let n := heap.length
  if n = 0 then (val, heap)
  else (at1 heap 1, dnheap_min (put1 heap 1 val) 1 n)

/-- Unconditional replace-root on a max-heap: `C_poppush_maxheap` (lines 428-455). -/
def C_poppush_maxheap (heap : List α) (val : α) : α × List α :=
  let n := heap.length
  if n = 0 then (val, heap)
  else (at1 heap 1, dnheap_max (put1 heap 1 val) 1 n)

/-! ## Batch pushpop and poppush (`C_npushpop_*`, `C_npoppush_*`, lines 457-539) -/

/-- Loop of `C_npushpop_minheap` (lines 467-472):
`if (vals[i] > x[0]) { x[0] = vals[i]; dnheap_min(x, 1, n); }`; the first list
holds `vals[i], vals[i+1], ...`. -/
def npushpop_min_loop (n : Nat) : List α → List α → List α
  | [], x => x
  | v :: vals, x =>
    if v > at1 x 1 then npushpop_min_loop n vals (dnheap_min (put1 x 1 v) 1 n)
    else npushpop_min_loop n vals x

/-- Batch pushpop on a min-heap: `C_npushpop_minheap` (lines 457-477). -/
def C_npushpop_minheap (heap values : List α) : List α :=
  let n := heap.length
  if n = 0 then heap else npushpop_min_loop n values heap

/-- Loop of `C_npushpop_maxheap` (lines 489-494):
`if (vals[i] < x[0]) { x[0] = vals[i]; dnheap_max(x, 1, n); }`. -/
def npushpop_max_loop (n : Nat) : List α → List α → List α
  | [], x => x
  | v :: vals, x =>
    if v < at1 x 1 then npushpop_max_loop n vals (dnheap_max (put1 x 1 v) 1 n)
    else npushpop_max_loop n vals x

/-- Batch pushpop on a max-heap: `C_npushpop_maxheap` (lines 479-499). -/
def C_npushpop_maxheap (heap values : List α) : List α :=
  let n := heap.length
  if n = 0 then heap else npushpop_max_loop n values heap

/-- Loop of `C_npoppush_minheap` (lines 511-514):
`x[0] = vals[i]; dnheap_min(x, 1, n);`. -/
def npoppush_min_loop (n : Nat) : List α → List α → List α
  | [], x => x
  | v :: vals, x => npoppush_min_loop n vals (dnheap_min (put1 x 1 v) 1 n)

/-- Batch poppush on a min-heap: `C_npoppush_minheap` (lines 501-519). -/
def C_npoppush_minheap (heap values : List α) : List α :=
  let n := heap.length
  if n = 0 then heap else npoppush_min_loop n values heap

/-- Loop of `C_npoppush_maxheap` (lines 531-534):
`x[0] = vals[i]; dnheap_max(x, 1, n);`. -/
def npoppush_max_loop (n : Nat) : List α → List α → List α
  | [], x => x
  | v :: vals, x => npoppush_max_loop n vals (dnheap_max (put1 x 1 v) 1 n)

/-- Batch poppush on a max-heap: `C_npoppush_maxheap` (lines 521-539). -/
def C_npoppush_maxheap (heap values : List α) : List α :=
  let n := heap.length
  if n = 0 then heap else npoppush_max_loop n values heap

/-! ## Exposed primitives (`C_upheap_*`, `C_dnheap_*`, lines 541-597)

The position and the size come from `asInteger` and may be any integer; the
functions contain no test of them and no call that signals an error. -/

/-- Exposed sift-up on a copy of the array: `C_upheap_minheap` (lines 541-553).
For a position that is not above `1` the loop `while (pos > 1)` of `upheap_min`
is not entered and the copy is returned as it is. -/
def C_upheap_minheap (heap : List α) (pos : Int) : List α :=
  let position := pos
  let x := heap
  if 1 < position then upheap_min x position.toNat else x

/-- Exposed sift-up on a copy of the array: `C_upheap_maxheap` (lines 555-567). -/
def C_upheap_maxheap (heap : List α) (pos : Int) : List α :=
  let position := pos
  let x := heap
  if 1 < position then upheap_max x position.toNat else x

/-- Exposed sift-down on a copy of the array: `C_dnheap_minheap` (lines 569-582),
for a position of at least `1`; a size below `2` (negative sizes included) admits
no child, as the size `0` does.  For a position below `1` the C loop either
stops at once or reads a cell before the buffer; no property is stated for such
a position, for which the array is returned here. -/
def C_dnheap_minheap (heap : List α) (pos size : Int) : List α :=
  let position := pos
  let heap_size := size
  let x := heap
  if 1 ≤ position then dnheap_min x position.toNat heap_size.toNat else x

/-- Exposed sift-down on a copy of the array: `C_dnheap_maxheap` (lines 584-597),
for a position of at least `1`. -/
def C_dnheap_maxheap (heap : List α) (pos size : Int) : List α :=
  let position := pos
  let heap_size := size
  let x := heap
  if 1 ≤ position then dnheap_max x position.toNat heap_size.toNat else x

/-! ## Specification-side definitions -/

/-- Batch pushpop as the specification words it (section 4.9): the single-value
pushpop of section 4.7 applied once per element of the input sequence, in input
order, against one evolving heap, of which only the final state is kept. -/
def fold_pushpop_min (heap values : List α) : List α :=
  values.foldl (fun h v => (C_pushpop_minheap h v).2) heap

/-- Max variant of `fold_pushpop_min`. -/
def fold_pushpop_max (heap values : List α) : List α :=
  values.foldl (fun h v => (C_pushpop_maxheap h v).2) heap

/-- Batch poppush as the specification words it (section 4.9): the single-value
poppush of section 4.8 applied once per element, in input order. -/
def fold_poppush_min (heap values : List α) : List α :=
  values.foldl (fun h v => (C_poppush_minheap h v).2) heap

/-- Max variant of `fold_poppush_min`. -/
def fold_poppush_max (heap values : List α) : List α :=
  values.foldl (fun h v => (C_poppush_maxheap h v).2) heap

/-- Position `p` lies in the subtree rooted at `pos`: taking the parent (`/ 2`)
of `p` some number `k` of times reaches `pos`; `p / 2 ^ k` is the `k`-th
ancestor of `p`.  Every position is in its own subtree (`k = 0`). -/
def inSubtree (pos p : Nat) : Prop := ∃ k, k ≤ p ∧ p / 2 ^ k = pos

instance (pos p : Nat) : Decidable (inSubtree pos p) :=
  decidable_of_iff (∃ k, k < p + 1 ∧ p / 2 ^ k = pos)
    ⟨fun ⟨k, h1, h2⟩ => ⟨k, Nat.le_of_lt_succ h1, h2⟩,
     fun ⟨k, h1, h2⟩ => ⟨k, Nat.lt_succ_of_le h1, h2⟩⟩

/-! ## Heap invariant -/

/-- Min-heap order on the first `size` positions: `value[p/2] <= value[p]` for
every position `1 < p <= size`. -/
def MinHeapUpTo (x : List α) (size : Nat) : Prop :=
  ∀ p, 1 < p → p ≤ size → at1 x (p / 2) ≤ at1 x p

/-- Max-heap order on the first `size` positions. -/
def MaxHeapUpTo (x : List α) (size : Nat) : Prop :=
  ∀ p, 1 < p → p ≤ size → at1 x (p / 2) ≥ at1 x p

/-- Min heap invariant of the whole array. -/
def IsMinHeap (x : List α) : Prop := MinHeapUpTo x x.length

/-- Max heap invariant of the whole array. -/
def IsMaxHeap (x : List α) : Prop := MaxHeapUpTo x x.length

instance (x : List α) (size : Nat) : Decidable (MinHeapUpTo x size) :=
  decidable_of_iff (∀ p, p < size + 1 → 1 < p → at1 x (p / 2) ≤ at1 x p)
    ⟨fun h p h1 h2 => h p (Nat.lt_succ_of_le h2) h1,
     fun h p h2 h1 => h p h1 (Nat.le_of_lt_succ h2)⟩

instance (x : List α) (size : Nat) : Decidable (MaxHeapUpTo x size) :=
  decidable_of_iff (∀ p, p < size + 1 → 1 < p → at1 x (p / 2) ≥ at1 x p)
    ⟨fun h p h1 h2 => h p (Nat.lt_succ_of_le h2) h1,
     fun h p h2 h1 => h p h1 (Nat.le_of_lt_succ h2)⟩

instance (x : List α) : Decidable (IsMinHeap x) :=
  inferInstanceAs (Decidable (MinHeapUpTo x x.length))

instance (x : List α) : Decidable (IsMaxHeap x) :=
  inferInstanceAs (Decidable (MaxHeapUpTo x x.length))

/-! ## Buffer lemmas -/

theorem length_put1 (x : List α) (p : Nat) (v : α) : (put1 x p v).length = x.length := by
  simp [put1]

theorem length_swap1 (x : List α) (a b : Nat) : (swap1 x a b).length = x.length := by
  simp [swap1, put1]

theorem at1_eq_getElem (x : List α) (p : Nat) (h1 : 1 ≤ p) (h2 : p ≤ x.length)
    (h : p - 1 < x.length) : at1 x p = x[p - 1] := by
  unfold at1
  exact List.getD_eq_getElem _ _ (by omega)

theorem at1_put1 (x : List α) (p q : Nat) (v : α) (hp1 : 1 ≤ p) (hp2 : p ≤ x.length)
    (hq : 1 ≤ q) : at1 (put1 x p v) q = if q = p then v else at1 x q := by
  unfold at1 put1
  simp only [List.getD_eq_getElem?_getD, List.getElem?_set]
  by_cases h : q = p
  · subst h
    have : q - 1 < x.length := by omega
    simp [this]
  · have : ¬ (p - 1 = q - 1) := by omega
    simp [this, h]

theorem at1_swap1 (x : List α) (a b q : Nat) (ha1 : 1 ≤ a) (ha2 : a ≤ x.length)
    (hb1 : 1 ≤ b) (hb2 : b ≤ x.length) (hq : 1 ≤ q) :
    at1 (swap1 x a b) q = if q = b then at1 x a else if q = a then at1 x b else at1 x q := by
  unfold swap1
  rw [at1_put1 _ _ _ _ hb1 (by rw [length_put1]; exact hb2) hq, at1_put1 _ _ _ _ ha1 ha2 hq]

theorem put1_perm_cons_erase (x : List α) (p : Nat) (v : α) (h1 : 1 ≤ p) (h2 : p ≤ x.length) :
    (put1 x p v).Perm (v :: x.erase (at1 x p)) := by
  rw [List.perm_iff_count]
  intro b
  have hlt : p - 1 < x.length := by omega
  unfold put1
  rw [List.count_set _ _ _ _ hlt, List.count_cons, List.count_erase, at1_eq_getElem x p h1 h2 (by omega)]

theorem swap1_perm (x : List α) (a b : Nat) (ha1 : 1 ≤ a) (ha2 : a ≤ x.length)
    (hb1 : 1 ≤ b) (hb2 : b ≤ x.length) : (swap1 x a b).Perm x := by
  rw [List.perm_iff_count]
  intro c
  have hla : a - 1 < x.length := by omega
  have hlb : b - 1 < x.length := by omega
  unfold swap1 put1
  rw [List.count_set _ _ _ _ (by simpa using hlb), List.count_set _ _ _ _ hla,
    at1_eq_getElem x a ha1 ha2 hla, at1_eq_getElem x b hb1 hb2 hlb]
  simp only [List.getElem_set]
  have hca : (if x[a - 1] = c then 1 else 0) ≤ x.count c := by
    split
    · rename_i h; subst h; exact List.count_pos_iff.mpr (List.getElem_mem _)
    · exact Nat.zero_le _
  have hcb : (if x[b - 1] = c then 1 else 0) ≤ x.count c := by
    split
    · rename_i h; subst h; exact List.count_pos_iff.mpr (List.getElem_mem _)
    · exact Nat.zero_le _
  by_cases hab : a - 1 = b - 1
  · simp only [hab, beq_iff_eq, if_true] at *
    split <;> simp_all
  · simp only [hab, beq_iff_eq, if_false] at *
    split <;> split <;> simp_all


/-! ## Max variants as min variants of the reversed order -/

theorem upheap_max_loop_eq_dual (fuel : Nat) (x : List α) (pos : Nat) :
    upheap_max_loop fuel x pos = upheap_min_loop (α := αᵒᵈ) fuel x pos := by
  induction fuel generalizing x pos with
  | zero => rfl
  | succ f ih =>
    simp only [upheap_max_loop, upheap_min_loop, ih]
    rfl

theorem upheap_max_eq_dual (x : List α) (pos : Nat) :
    upheap_max x pos = upheap_min (α := αᵒᵈ) x pos :=
  upheap_max_loop_eq_dual pos x pos

theorem dnheap_max_loop_eq_dual (fuel : Nat) (x : List α) (pos size : Nat) :
    dnheap_max_loop fuel x pos size = dnheap_min_loop (α := αᵒᵈ) fuel x pos size := by
  induction fuel generalizing x pos with
  | zero => rfl
  | succ f ih =>
    simp only [dnheap_max_loop, dnheap_min_loop, ih]
    rfl

theorem dnheap_max_eq_dual (x : List α) (pos size : Nat) :
    dnheap_max x pos size = dnheap_min (α := αᵒᵈ) x pos size :=
  dnheap_max_loop_eq_dual size x pos size

theorem maxheap_loop_eq_dual (n i : Nat) (x : List α) :
    maxheap_loop n i x = minheap_loop (α := αᵒᵈ) n i x := by
  induction i generalizing x with
  | zero => rfl
  | succ i ih => simp only [maxheap_loop, minheap_loop, ih, dnheap_max_eq_dual]

theorem C_maxheap_eq_dual (x : List α) : C_maxheap x = C_minheap (α := αᵒᵈ) x := by
  simp only [C_maxheap, C_minheap, maxheap_loop_eq_dual]

theorem push_max_loop_eq_dual (n : Nat) (vals : List α) (i : Nat) (x : List α) :
    push_max_loop n vals i x = push_min_loop (α := αᵒᵈ) n vals i x := by
  induction vals generalizing i x with
  | nil => rfl
  | cons v vals ih => simp only [push_max_loop, push_min_loop, ih, upheap_max_eq_dual]

theorem C_push_maxheap_eq_dual (heap values : List α) :
    C_push_maxheap heap values = C_push_minheap (α := αᵒᵈ) heap values := by
  simp only [C_push_maxheap, C_push_minheap, push_max_loop_eq_dual]

theorem pop_max_loop_eq_dual (n r i : Nat) (s : List α × List α) :
    pop_max_loop n r i s = pop_min_loop (α := αᵒᵈ) n r i s := by
  induction r generalizing i s with
  | zero => rfl
  | succ r ih =>
    obtain ⟨v, w⟩ := s
    simp only [pop_max_loop, pop_min_loop, ih, dnheap_max_eq_dual]

theorem C_pop_maxheap_eq_dual (heap : List α) (count : Int) :
    C_pop_maxheap heap count = C_pop_minheap (α := αᵒᵈ) heap count := by
  simp only [C_pop_maxheap, C_pop_minheap, pop_max_loop_eq_dual]
  rfl

theorem min_leaf_loop_eq_dual (x : List α) (r i : Nat) (s : α × Nat) :
    min_leaf_loop x r i s = max_leaf_loop (α := αᵒᵈ) x r i s := by
  induction r generalizing i s with
  | zero => rfl
  | succ r ih =>
    obtain ⟨v, w⟩ := s
    simp only [min_leaf_loop, max_leaf_loop, ih]
    rfl

theorem C_insert_maxheap_eq_dual (heap : List α) (val : α) :
    C_insert_maxheap heap val = C_insert_minheap (α := αᵒᵈ) heap val := by
  simp only [C_insert_maxheap, C_insert_minheap, min_leaf_scan, max_leaf_scan,
    min_leaf_loop_eq_dual, upheap_max_eq_dual]
  rfl

theorem C_pushpop_maxheap_eq_dual (heap : List α) (val : α) :
    C_pushpop_maxheap heap val = C_pushpop_minheap (α := αᵒᵈ) heap val := by
  simp only [C_pushpop_maxheap, C_pushpop_minheap, dnheap_max_eq_dual]
  rfl

theorem C_poppush_maxheap_eq_dual (heap : List α) (val : α) :
    C_poppush_maxheap heap val = C_poppush_minheap (α := αᵒᵈ) heap val := by
  simp only [C_poppush_maxheap, C_poppush_minheap, dnheap_max_eq_dual]

theorem IsMaxHeap_eq_dual (x : List α) : IsMaxHeap x = IsMinHeap (α := αᵒᵈ) x := rfl

/-! ## Sift-down -/

theorem child_cases (c pos : Nat) (h : c / 2 = pos) : c = 2 * pos ∨ c = 2 * pos + 1 := by
  omega

theorem dn_min_choice_eq (x : List α) (pos size : Nat) (hpos : 1 ≤ pos)
    (h : dn_min_choice x pos size = pos) :
    ∀ c, c ≤ size → c / 2 = pos → at1 x pos ≤ at1 x c := by
  intro c hc hcp
  unfold dn_min_choice at h
  simp only at h
  rcases child_cases c pos hcp with rfl | rfl
  · by_cases h1 : 2 * pos ≤ size ∧ at1 x (2 * pos) < at1 x pos
    · rw [if_pos h1] at h
      split at h <;> omega
    · exact not_lt.mp (fun hlt => h1 ⟨hc, hlt⟩)
  · by_cases h1 : 2 * pos ≤ size ∧ at1 x (2 * pos) < at1 x pos
    · rw [if_pos h1] at h
      split at h <;> omega
    · rw [if_neg h1] at h
      by_cases h2 : 2 * pos + 1 ≤ size ∧ at1 x (2 * pos + 1) < at1 x pos
      · rw [if_pos h2] at h; omega
      · exact not_lt.mp (fun hlt => h2 ⟨hc, hlt⟩)

theorem dn_min_choice_ne (x : List α) (pos size : Nat) (hpos : 1 ≤ pos)
    (h : dn_min_choice x pos size ≠ pos) :
    dn_min_choice x pos size / 2 = pos ∧ pos < dn_min_choice x pos size ∧
    dn_min_choice x pos size ≤ size ∧
    at1 x (dn_min_choice x pos size) < at1 x pos ∧
    ∀ c, c ≤ size → c / 2 = pos → at1 x (dn_min_choice x pos size) ≤ at1 x c := by
  unfold dn_min_choice at h ⊢
  simp only at h ⊢
  by_cases h1 : 2 * pos ≤ size ∧ at1 x (2 * pos) < at1 x pos
  · simp only [if_pos h1] at h ⊢
    by_cases h2 : 2 * pos + 1 ≤ size ∧ at1 x (2 * pos + 1) < at1 x (2 * pos)
    · simp only [if_pos h2] at h ⊢
      refine ⟨by omega, by omega, h2.1, lt_trans h2.2 h1.2, ?_⟩
      intro c hc hcp
      rcases child_cases c pos hcp with rfl | rfl
      · exact le_of_lt h2.2
      · exact le_refl _
    · simp only [if_neg h2] at h ⊢
      refine ⟨by omega, by omega, h1.1, h1.2, ?_⟩
      intro c hc hcp
      rcases child_cases c pos hcp with rfl | rfl
      · exact le_refl _
      · exact not_lt.mp (fun hlt => h2 ⟨hc, hlt⟩)
  · simp only [if_neg h1] at h ⊢
    by_cases h2 : 2 * pos + 1 ≤ size ∧ at1 x (2 * pos + 1) < at1 x pos
    · simp only [if_pos h2] at h ⊢
      refine ⟨by omega, by omega, h2.1, h2.2, ?_⟩
      intro c hc hcp
      rcases child_cases c pos hcp with rfl | rfl
      · have : ¬ at1 x (2 * pos) < at1 x pos := fun hlt => h1 ⟨by omega, hlt⟩
        exact le_trans (le_of_lt h2.2) (not_lt.mp this)
      · exact le_refl _
    · simp only [if_neg h2] at h
      exact absurd rfl h

theorem length_dnheap_min_loop (fuel : Nat) (x : List α) (pos size : Nat) :
    (dnheap_min_loop fuel x pos size).length = x.length := by
  induction fuel generalizing x pos with
  | zero => rfl
  | succ f ih =>
    simp only [dnheap_min_loop]
    split
    · rw [ih, length_swap1]
    · rfl

theorem length_dnheap_min (x : List α) (pos size : Nat) :
    (dnheap_min x pos size).length = x.length :=
  length_dnheap_min_loop size x pos size

theorem dnheap_min_loop_perm (fuel : Nat) (x : List α) (pos size : Nat) (hpos : 1 ≤ pos)
    (hsize : size ≤ x.length) : (dnheap_min_loop fuel x pos size).Perm x := by
  induction fuel generalizing x pos with
  | zero => exact List.Perm.refl _
  | succ f ih =>
    simp only [dnheap_min_loop]
    split
    · rename_i hne
      obtain ⟨h1, h2, h3, -, -⟩ := dn_min_choice_ne x pos size hpos hne
      have hsw := swap1_perm x pos (dn_min_choice x pos size) hpos (by omega) (by omega)
        (by omega)
      exact (ih _ _ (by omega) (by rw [length_swap1]; exact hsize)).trans hsw
    · exact List.Perm.refl _

theorem dnheap_min_perm (x : List α) (pos size : Nat) (hpos : 1 ≤ pos)
    (hsize : size ≤ x.length) : (dnheap_min x pos size).Perm x :=
  dnheap_min_loop_perm size x pos size hpos hsize

/-- The fuel of `dnheap_min` is never used up: from `size + 1 - pos` on, more
fuel does not change the result of the loop. -/
theorem dnheap_min_loop_fuel (f g : Nat) (x : List α) (pos size : Nat) (hpos : 1 ≤ pos)
    (hf : size + 1 - pos ≤ f) (hg : size + 1 - pos ≤ g) :
    dnheap_min_loop f x pos size = dnheap_min_loop g x pos size := by
  induction f generalizing g x pos with
  | zero =>
    cases g with
    | zero => rfl
    | succ g =>
      simp only [dnheap_min_loop]
      split
      · rename_i hne
        obtain ⟨h1, h2, h3, -, -⟩ := dn_min_choice_ne x pos size hpos hne
        omega
      · rfl
  | succ f ih =>
    cases g with
    | zero =>
      simp only [dnheap_min_loop]
      split
      · rename_i hne
        obtain ⟨h1, h2, h3, -, -⟩ := dn_min_choice_ne x pos size hpos hne
        omega
      · rfl
    | succ g =>
      simp only [dnheap_min_loop]
      split
      · rename_i hne
        obtain ⟨h1, h2, h3, -, -⟩ := dn_min_choice_ne x pos size hpos hne
        exact ih g _ _ (by omega) (by omega) (by omega)
      · rfl

/-- Sift-down repairs the heap order below `pos`.  `P` marks the parents in
scope (closed under taking children): if every parent-child pair in scope other
than the ones whose parent is `pos` is in order, and the parent of `pos`, when in
scope, is below the children of `pos`, then after the loop every pair in scope
is in order. -/
theorem dnheap_min_loop_inv (P : Nat → Prop) (hP : ∀ q, P q → P (2 * q) ∧ P (2 * q + 1))
    (fuel : Nat) (x : List α) (pos size : Nat) (hpos : 1 ≤ pos) (hsize : size ≤ x.length)
    (hfuel : size + 1 - pos ≤ fuel) (hPpos : P pos)
    (inv1 : ∀ c, 1 < c → c ≤ size → P (c / 2) → c / 2 ≠ pos → at1 x (c / 2) ≤ at1 x c)
    (inv2 : ∀ c, c ≤ size → c / 2 = pos → 1 < pos → P (pos / 2) →
      at1 x (pos / 2) ≤ at1 x c) :
    ∀ c, 1 < c → c ≤ size → P (c / 2) →
      at1 (dnheap_min_loop fuel x pos size) (c / 2) ≤ at1 (dnheap_min_loop fuel x pos size) c := by
  induction fuel generalizing x pos with
  | zero =>
    intro c hc1 hc2 hPc
    exact inv1 c hc1 hc2 hPc (by omega)
  | succ f ih =>
    simp only [dnheap_min_loop]
    split
    · rename_i hne
      obtain ⟨h1, h2, h3, h4, h5⟩ := dn_min_choice_ne x pos size hpos hne
      generalize dn_min_choice x pos size = s at h1 h2 h3 h4 h5
      have hsw : ∀ q, 1 ≤ q → at1 (swap1 x pos s) q =
          if q = s then at1 x pos else if q = pos then at1 x s else at1 x q :=
        fun q hq => at1_swap1 x pos s q hpos (by omega) (by omega) (by omega) hq
      have hPs : P s := by
        rcases child_cases s pos h1 with e | e
        · rw [e]; exact (hP pos hPpos).1
        · rw [e]; exact (hP pos hPpos).2
      apply ih (swap1 x pos s) s (by omega) (by rw [length_swap1]; exact hsize) (by omega) hPs
      · intro c hc1 hc2 hPc hcs
        rw [hsw c (by omega), hsw (c / 2) (by omega)]
        by_cases hcp : c / 2 = pos
        · have e1 : ¬ (c / 2 = s) := by omega
          rw [if_neg e1, if_pos hcp]
          by_cases hcs2 : c = s
          · rw [if_pos hcs2]; exact le_of_lt h4
          · have e2 : ¬ (c = pos) := by omega
            rw [if_neg hcs2, if_neg e2]
            exact h5 c hc2 hcp
        · rw [if_neg hcs, if_neg hcp]
          have e1 : ¬ (c = s) := by omega
          rw [if_neg e1]
          by_cases hcpos : c = pos
          · rw [if_pos hcpos]
            subst hcpos
            exact inv2 s h3 h1 hc1 hPc
          · rw [if_neg hcpos]
            exact inv1 c hc1 hc2 hPc hcp
      · intro c hc2 hcs hs1 hPs2
        rw [h1] at hPs2 ⊢
        rw [hsw c (by omega), hsw pos hpos]
        have e1 : ¬ (c = s) := by omega
        have e2 : ¬ (c = pos) := by omega
        have e3 : ¬ (pos = s) := by omega
        rw [if_neg e1, if_neg e2, if_neg e3, if_pos rfl]
        have h6 := inv1 c (by omega) hc2 (by rw [hcs]; exact hPs) (by omega)
        rwa [hcs] at h6
    · rename_i heq
      have heq' : dn_min_choice x pos size = pos := by
        by_contra hne; exact heq hne
      intro c hc1 hc2 hPc
      by_cases hcp : c / 2 = pos
      · rw [hcp]; exact dn_min_choice_eq x pos size hpos heq' c hc2 hcp
      · exact inv1 c hc1 hc2 hPc hcp

/-- Sift-down at the root of an array whose pairs not involving the root are in
order yields a min-heap on the first `size` positions. -/
theorem dnheap_min_root (x : List α) (size : Nat) (hsize : size ≤ x.length)
    (inv1 : ∀ c, 1 < c → c ≤ size → c / 2 ≠ 1 → at1 x (c / 2) ≤ at1 x c) :
    MinHeapUpTo (dnheap_min x 1 size) size := by
  intro c hc1 hc2
  exact dnheap_min_loop_inv (fun _ => True) (fun _ _ => ⟨trivial, trivial⟩) size x 1 size
    (le_refl _) hsize (by omega) trivial (fun c h1 h2 _ h3 => inv1 c h1 h2 h3)
    (fun c _ _ h _ => absurd h (lt_irrefl _)) c hc1 hc2 trivial

/-! ## Build -/

theorem length_minheap_loop (n i : Nat) (x : List α) :
    (minheap_loop n i x).length = x.length := by
  induction i generalizing x with
  | zero => rfl
  | succ i ih => simp only [minheap_loop]; rw [ih, length_dnheap_min]

theorem minheap_loop_perm (n i : Nat) (x : List α) (hn : n ≤ x.length) :
    (minheap_loop n i x).Perm x := by
  induction i generalizing x with
  | zero => exact List.Perm.refl _
  | succ i ih =>
    simp only [minheap_loop]
    exact (ih _ (by rw [length_dnheap_min]; exact hn)).trans
      (dnheap_min_perm x (i + 1) n (by omega) hn)

theorem minheap_loop_inv (n i : Nat) (x : List α) (hn : n ≤ x.length)
    (inv : ∀ c, 1 < c → c ≤ n → i < c / 2 → at1 x (c / 2) ≤ at1 x c) :
    MinHeapUpTo (minheap_loop n i x) n := by
  induction i generalizing x with
  | zero =>
    intro c hc1 hc2
    exact inv c hc1 hc2 (by omega)
  | succ i ih =>
    simp only [minheap_loop]
    apply ih _ (by rw [length_dnheap_min]; exact hn)
    intro c hc1 hc2 hi
    exact dnheap_min_loop_inv (fun q => i + 1 ≤ q) (fun q hq => ⟨by omega, by omega⟩) n x
      (i + 1) n (by omega) hn (by omega) (le_refl _)
      (fun c h1 h2 h3 h4 => inv c h1 h2 (by omega))
      (fun c _ _ _ h => by omega) c hc1 hc2 hi

theorem C_minheap_length (x : List α) : (C_minheap x).length = x.length := by
  unfold C_minheap
  simp only
  split
  · rfl
  · exact length_minheap_loop _ _ _

theorem C_minheap_perm (x : List α) : (C_minheap x).Perm x := by
  unfold C_minheap
  simp only
  split
  · exact List.Perm.refl _
  · exact minheap_loop_perm _ _ _ (le_refl _)

theorem C_minheap_isMinHeap (x : List α) : IsMinHeap (C_minheap x) := by
  unfold IsMinHeap
  rw [C_minheap_length]
  unfold C_minheap
  simp only
  split
  · rename_i h
    intro c hc1 hc2
    omega
  · apply minheap_loop_inv _ _ _ (le_refl _)
    intro c hc1 hc2 hi
    omega

/-! ## Sift-up -/

theorem length_upheap_min_loop (fuel : Nat) (x : List α) (pos : Nat) :
    (upheap_min_loop fuel x pos).length = x.length := by
  induction fuel generalizing x pos with
  | zero => rfl
  | succ f ih =>
    simp only [upheap_min_loop]
    split
    · split
      · rw [ih, length_swap1]
      · rfl
    · rfl

theorem length_upheap_min (x : List α) (pos : Nat) : (upheap_min x pos).length = x.length :=
  length_upheap_min_loop pos x pos

theorem upheap_min_loop_perm (fuel : Nat) (x : List α) (pos : Nat) (hpos : pos ≤ x.length) :
    (upheap_min_loop fuel x pos).Perm x := by
  induction fuel generalizing x pos with
  | zero => exact List.Perm.refl _
  | succ f ih =>
    simp only [upheap_min_loop]
    split
    · split
      · have hsw := swap1_perm x (pos / 2) pos (by omega) (by omega) (by omega) hpos
        exact (ih _ _ (by rw [length_swap1]; omega)).trans hsw
      · exact List.Perm.refl _
    · exact List.Perm.refl _

theorem upheap_min_perm (x : List α) (pos : Nat) (hpos : pos ≤ x.length) :
    (upheap_min x pos).Perm x :=
  upheap_min_loop_perm pos x pos hpos

/-- The fuel of `upheap_min` is never used up: from `pos` on, more fuel does not
change the result of the loop. -/
theorem upheap_min_loop_fuel (f g : Nat) (x : List α) (pos : Nat) (hf : pos ≤ f)
    (hg : pos ≤ g) : upheap_min_loop f x pos = upheap_min_loop g x pos := by
  induction f generalizing g x pos with
  | zero =>
    cases g with
    | zero => rfl
    | succ g =>
      simp only [upheap_min_loop]
      rw [if_neg (by omega)]
  | succ f ih =>
    cases g with
    | zero =>
      simp only [upheap_min_loop]
      rw [if_neg (by omega)]
    | succ g =>
      simp only [upheap_min_loop]
      split
      · split
        · exact ih g _ _ (by omega) (by omega)
        · rfl
      · rfl

/-- Sift-up repairs the heap order on the first `size` positions: if every pair
other than the one between `pos` and its parent is in order, and the parent of
`pos` is below the children of `pos`, the result is a min-heap. -/
theorem upheap_min_loop_inv (fuel : Nat) (x : List α) (pos size : Nat) (hfuel : pos ≤ fuel)
    (hpos : pos ≤ size) (hsize : size ≤ x.length)
    (inv1 : ∀ c, 1 < c → c ≤ size → c ≠ pos → at1 x (c / 2) ≤ at1 x c)
    (inv2 : ∀ c, c ≤ size → c / 2 = pos → 1 < pos → at1 x (pos / 2) ≤ at1 x c) :
    MinHeapUpTo (upheap_min_loop fuel x pos) size := by
  induction fuel generalizing x pos with
  | zero =>
    intro c hc1 hc2
    exact inv1 c hc1 hc2 (by omega)
  | succ f ih =>
    simp only [upheap_min_loop]
    split
    · rename_i hp1
      split
      · rename_i hlt
        have hsw : ∀ q, 1 ≤ q → at1 (swap1 x (pos / 2) pos) q =
            if q = pos then at1 x (pos / 2) else if q = pos / 2 then at1 x pos else at1 x q :=
          fun q hq => at1_swap1 x (pos / 2) pos q (by omega) (by omega) (by omega) (by omega) hq
        apply ih (swap1 x (pos / 2) pos) (pos / 2) (by omega) (by omega)
          (by rw [length_swap1]; exact hsize)
        · intro c hc1 hc2 hcp
          rw [hsw c (by omega), hsw (c / 2) (by omega)]
          have e0 : ¬ (pos / 2 = pos) := by omega
          by_cases hc : c = pos
          · subst hc
            rw [if_pos rfl, if_neg e0, if_pos rfl]
            exact le_of_lt hlt
          · rw [if_neg hc, if_neg hcp]
            by_cases hcc : c / 2 = pos
            · rw [if_pos hcc]
              exact inv2 c hc2 hcc hp1
            · rw [if_neg hcc]
              by_cases hcs : c / 2 = pos / 2
              · rw [if_pos hcs]
                have h1 := inv1 c hc1 hc2 hc
                rw [hcs] at h1
                exact le_trans (le_of_lt hlt) h1
              · rw [if_neg hcs]
                exact inv1 c hc1 hc2 hc
        · intro c hc2 hcp hpp
          rw [hsw c (by omega), hsw (pos / 2 / 2) (by omega)]
          have e1 : ¬ (pos / 2 / 2 = pos) := by omega
          have e2 : ¬ (pos / 2 / 2 = pos / 2) := by omega
          have e3 : ¬ (c = pos / 2) := by omega
          rw [if_neg e1, if_neg e2]
          have hg := inv1 (pos / 2) hpp (by omega) (by omega)
          by_cases hc : c = pos
          · rw [if_pos hc]; exact hg
          · rw [if_neg hc, if_neg e3]
            have h1 := inv1 c (by omega) hc2 hc
            rw [hcp] at h1
            exact le_trans hg h1
      · rename_i hge
        intro c hc1 hc2
        by_cases hc : c = pos
        · subst hc; exact not_lt.mp hge
        · exact inv1 c hc1 hc2 hc
    · intro c hc1 hc2
      exact inv1 c hc1 hc2 (by omega)

/-- Sift-up from a leaf position of an array that is a min-heap apart from that
leaf. -/
theorem upheap_min_leaf (x : List α) (pos size : Nat) (hpos : pos ≤ size)
    (hsize : size ≤ x.length) (hleaf : size < 2 * pos)
    (inv1 : ∀ c, 1 < c → c ≤ size → c ≠ pos → at1 x (c / 2) ≤ at1 x c) :
    MinHeapUpTo (upheap_min x pos) size :=
  upheap_min_loop_inv pos x pos size (le_refl _) hpos hsize inv1
    (fun c h1 h2 _ => by omega)

/-! ## Locality: the sift loops only touch the active region -/

theorem at1_append_left (a b : List α) (p : Nat) (h1 : 1 ≤ p) (h2 : p ≤ a.length) :
    at1 (a ++ b) p = at1 a p := by
  unfold at1
  simp only [List.getD_eq_getElem?_getD]
  rw [List.getElem?_append_left (by omega)]

theorem put1_append_left (a b : List α) (p : Nat) (v : α) (h1 : 1 ≤ p) (h2 : p ≤ a.length) :
    put1 (a ++ b) p v = put1 a p v ++ b := by
  unfold put1
  rw [List.set_append_left _ _ (by omega)]

theorem swap1_append_left (a b : List α) (p q : Nat) (hp1 : 1 ≤ p) (hp2 : p ≤ a.length)
    (hq1 : 1 ≤ q) (hq2 : q ≤ a.length) : swap1 (a ++ b) p q = swap1 a p q ++ b := by
  unfold swap1
  rw [at1_append_left a b p hp1 hp2, at1_append_left a b q hq1 hq2,
    put1_append_left a b p _ hp1 hp2, put1_append_left _ b q _ hq1 (by rw [length_put1]; exact hq2)]

theorem upheap_min_loop_append (fuel : Nat) (a b : List α) (pos : Nat) (hpos : pos ≤ a.length) :
    upheap_min_loop fuel (a ++ b) pos = upheap_min_loop fuel a pos ++ b := by
  induction fuel generalizing a pos with
  | zero => rfl
  | succ f ih =>
    simp only [upheap_min_loop]
    by_cases hp : 1 < pos
    · rw [if_pos hp, if_pos hp, at1_append_left a b pos (by omega) hpos,
        at1_append_left a b (pos / 2) (by omega) (by omega)]
      split
      · rw [swap1_append_left a b (pos / 2) pos (by omega) (by omega) (by omega) hpos]
        exact ih _ _ (by rw [length_swap1]; omega)
      · rfl
    · rw [if_neg hp, if_neg hp]

theorem upheap_min_append (a b : List α) (pos : Nat) (hpos : pos ≤ a.length) :
    upheap_min (a ++ b) pos = upheap_min a pos ++ b :=
  upheap_min_loop_append pos a b pos hpos

theorem dn_min_choice_append (a b : List α) (pos size : Nat) (hpos : 1 ≤ pos)
    (hsize : size ≤ a.length) :
    dn_min_choice (a ++ b) pos size = dn_min_choice a pos size := by
  unfold dn_min_choice
  simp only
  by_cases h1 : 2 * pos ≤ size
  · rw [at1_append_left a b (2 * pos) (by omega) (by omega),
      at1_append_left a b pos hpos (by omega)]
    by_cases h2 : 2 * pos + 1 ≤ size
    · rw [at1_append_left a b (2 * pos + 1) (by omega) (by omega)]
      split
      · rw [at1_append_left a b (2 * pos) (by omega) (by omega)]
      · rw [at1_append_left a b pos hpos (by omega)]
    · have e1 : ∀ (P : Prop), ¬ (2 * pos + 1 ≤ size ∧ P) := fun P h => h2 h.1
      simp only [e1, if_false]
  · have e1 : ∀ (P : Prop), ¬ (2 * pos ≤ size ∧ P) := fun P h => h1 h.1
    have e2 : ∀ (P : Prop), ¬ (2 * pos + 1 ≤ size ∧ P) := fun P h => h1 (by omega)
    simp only [e1, e2, if_false]

theorem dnheap_min_loop_append (fuel : Nat) (a b : List α) (pos size : Nat) (hpos : 1 ≤ pos)
    (hsize : size ≤ a.length) :
    dnheap_min_loop fuel (a ++ b) pos size = dnheap_min_loop fuel a pos size ++ b := by
  induction fuel generalizing a pos with
  | zero => rfl
  | succ f ih =>
    simp only [dnheap_min_loop]
    rw [dn_min_choice_append a b pos size hpos hsize]
    split
    · rename_i hne
      obtain ⟨h1, h2, h3, -, -⟩ := dn_min_choice_ne a pos size hpos hne
      rw [swap1_append_left a b pos _ hpos (by omega) (by omega) (by omega)]
      exact ih _ _ (by omega) (by rw [length_swap1]; exact hsize)
    · rfl

theorem dnheap_min_append (a b : List α) (pos size : Nat) (hpos : 1 ≤ pos)
    (hsize : size ≤ a.length) :
    dnheap_min (a ++ b) pos size = dnheap_min a pos size ++ b :=
  dnheap_min_loop_append size a b pos size hpos hsize

theorem MinHeapUpTo_append (a b : List α) (size : Nat) (hsize : size ≤ a.length) :
    MinHeapUpTo (a ++ b) size ↔ MinHeapUpTo a size := by
  unfold MinHeapUpTo
  constructor
  · intro h p hp1 hp2
    have := h p hp1 hp2
    rwa [at1_append_left a b p (by omega) (by omega),
      at1_append_left a b (p / 2) (by omega) (by omega)] at this
  · intro h p hp1 hp2
    rw [at1_append_left a b p (by omega) (by omega),
      at1_append_left a b (p / 2) (by omega) (by omega)]
    exact h p hp1 hp2

/-! ## Push -/

theorem put1_append_cons (H rest : List α) (d v : α) :
    put1 (H ++ d :: rest) (H.length + 1) v = (H ++ [v]) ++ rest := by
  unfold put1
  rw [List.set_append_right _ _ (by omega)]
  simp

theorem MinHeap_append_leaf (H : List α) (v : α) (hheap : IsMinHeap H) :
    IsMinHeap (upheap_min (H ++ [v]) (H.length + 1)) := by
  unfold IsMinHeap
  rw [length_upheap_min]
  have hlen : (H ++ [v]).length = H.length + 1 := by simp
  rw [hlen]
  apply upheap_min_leaf (H ++ [v]) (H.length + 1) (H.length + 1) (le_refl _) (by omega) (by omega)
  intro c hc1 hc2 hc3
  rw [at1_append_left H [v] c (by omega) (by omega),
    at1_append_left H [v] (c / 2) (by omega) (by omega)]
  exact hheap c hc1 (by omega)

theorem push_min_loop_spec (n : Nat) (vals : List α) (i : Nat) (H rest : List α)
    (hH : H.length = n + i) (hrest : rest.length = vals.length) (hheap : IsMinHeap H) :
    (push_min_loop n vals i (H ++ rest)).Perm (H ++ vals) ∧
    IsMinHeap (push_min_loop n vals i (H ++ rest)) := by
  induction vals generalizing i H rest with
  | nil =>
    have : rest = [] := List.length_eq_zero.mp hrest
    subst this
    simp only [push_min_loop, List.append_nil]
    exact ⟨List.Perm.refl _, hheap⟩
  | cons v vs ih =>
    cases rest with
    | nil => simp at hrest
    | cons d rest =>
      simp only [push_min_loop]
      have e : n + i + 1 = H.length + 1 := by omega
      rw [e, put1_append_cons, upheap_min_append _ _ _ (by simp)]
      have hlen : (upheap_min (H ++ [v]) (H.length + 1)).length = n + (i + 1) := by
        rw [length_upheap_min]; simp; omega
      obtain ⟨hp, hh⟩ := ih (i + 1) (upheap_min (H ++ [v]) (H.length + 1)) rest hlen
        (by simpa using hrest) (MinHeap_append_leaf H v hheap)
      refine ⟨hp.trans ?_, hh⟩
      have h1 : (upheap_min (H ++ [v]) (H.length + 1)).Perm (H ++ [v]) :=
        upheap_min_perm _ _ (by simp)
      have h2 := h1.append_right vs
      simpa using h2

theorem C_push_minheap_perm (heap values : List α) (hheap : IsMinHeap heap) :
    (C_push_minheap heap values).Perm (heap ++ values) :=
  (push_min_loop_spec heap.length values 0 heap (List.replicate values.length default)
    rfl (by simp) hheap).1

theorem C_push_minheap_isMinHeap (heap values : List α) (hheap : IsMinHeap heap) :
    IsMinHeap (C_push_minheap heap values) :=
  (push_min_loop_spec heap.length values 0 heap (List.replicate values.length default)
    rfl (by simp) hheap).2

/-! ## Pop -/

theorem at1_cons_succ (a : α) (t : List α) (p : Nat) (hp : 1 ≤ p) :
    at1 (a :: t) (p + 1) = at1 t p := by
  unfold at1
  obtain ⟨q, rfl⟩ : ∃ q, p = q + 1 := ⟨p - 1, by omega⟩
  simp

theorem at1_one_cons (a : α) (t : List α) : at1 (a :: t) 1 = a := by
  simp [at1]

theorem at1_append_length (W : List α) (l : α) (T : List α) :
    at1 (W ++ l :: T) (W.length + 1) = l := by
  unfold at1
  simp only [Nat.add_sub_cancel, List.getD_eq_getElem?_getD]
  rw [List.getElem?_append_right (le_refl _)]
  simp

/-- The root of a min-heap is a lower bound of the heap. -/
theorem MinHeapUpTo_root_le (x : List α) (size : Nat) (h : MinHeapUpTo x size) :
    ∀ p, 1 ≤ p → p ≤ size → at1 x 1 ≤ at1 x p := by
  intro p
  induction p using Nat.strong_induction_on with
  | _ p ih =>
    intro hp1 hp2
    by_cases hp : p = 1
    · subst hp; exact le_refl _
    · exact le_trans (ih (p / 2) (by omega) (by omega) (by omega)) (h p (by omega) hp2)

theorem mem_iff_at1 (x : List α) (a : α) : a ∈ x ↔ ∃ p, 1 ≤ p ∧ p ≤ x.length ∧ at1 x p = a := by
  constructor
  · intro h
    obtain ⟨i, hi, rfl⟩ := List.getElem_of_mem h
    exact ⟨i + 1, by omega, by omega, by rw [at1_eq_getElem x (i + 1) (by omega) (by omega) (by omega)]; rfl⟩
  · rintro ⟨p, h1, h2, rfl⟩
    rw [at1_eq_getElem x p h1 h2 (by omega)]
    exact List.getElem_mem _

theorem IsMinHeap_root_le (x : List α) (h : IsMinHeap x) : ∀ a ∈ x, at1 x 1 ≤ a := by
  intro a ha
  obtain ⟨p, h1, h2, rfl⟩ := (mem_iff_at1 x a).mp ha
  exact MinHeapUpTo_root_le x x.length h p h1 h2

/-- One round of the extraction loop on a buffer whose active region is `W`:
the root is replaced by the last active cell and sifted down in the region
shortened by one. -/
theorem pop_step (W T : List α) (hW : 1 ≤ W.length) :
    ∃ W' T', dnheap_min (put1 (W ++ T) 1 (at1 (W ++ T) W.length)) 1 (W.length - 1) = W' ++ T' ∧
      W'.length = W.length - 1 ∧ (at1 W 1 :: W').Perm W ∧ (IsMinHeap W → IsMinHeap W') := by
  rcases List.eq_nil_or_concat W with rfl | ⟨W0, l, hWl⟩
  · simp at hW
  · rw [List.concat_eq_append] at hWl
    subst hWl
    have hl : at1 (W0 ++ [l] ++ T) (W0 ++ [l]).length = l := by
      have := at1_append_length W0 l T
      simpa using this
    rw [hl]
    cases W0 with
    | nil =>
      refine ⟨[], l :: T, ?_, rfl, ?_, ?_⟩
      · simp [put1, dnheap_min, dnheap_min_loop]
      · simp [at1]
      · intro _ c hc1 hc2
        simp at hc2; omega
    | cons r0 tl =>
      have e1 : put1 (r0 :: tl ++ [l] ++ T) 1 l = (l :: tl) ++ (l :: T) := by
        simp [put1]
      have e2 : (r0 :: tl ++ [l]).length - 1 = (l :: tl).length := by simp
      rw [e1, e2, dnheap_min_append (l :: tl) (l :: T) 1 _ (le_refl _) (le_refl _)]
      refine ⟨dnheap_min (l :: tl) 1 (l :: tl).length, l :: T, rfl, ?_, ?_, ?_⟩
      · rw [length_dnheap_min]
      · rw [at1_append_left _ _ 1 (le_refl _) (by simp), at1_one_cons]
        have h1 : (dnheap_min (l :: tl) 1 (l :: tl).length).Perm (l :: tl) :=
          dnheap_min_perm _ _ _ (le_refl _) (le_refl _)
        have h2 : (r0 :: tl ++ [l]).Perm (r0 :: l :: tl) := by
          simp only [List.cons_append]
          exact List.Perm.cons _ (List.perm_append_singleton l tl)
        exact (List.Perm.cons r0 h1).trans h2.symm
      · intro hheap
        unfold IsMinHeap
        rw [length_dnheap_min]
        apply dnheap_min_root _ _ (le_refl _)
        intro c hc1 hc2 hc3
        have hc2' : c ≤ tl.length + 1 := by simpa using hc2
        obtain ⟨d, rfl⟩ : ∃ d, c = d + 1 := ⟨c - 1, by omega⟩
        obtain ⟨e, he⟩ : ∃ e, (d + 1) / 2 = e + 1 := ⟨(d + 1) / 2 - 1, by omega⟩
        rw [he, at1_cons_succ l tl d (by omega), at1_cons_succ l tl e (by omega)]
        have h3 := hheap (d + 1) hc1 (by simp; omega)
        rw [he, List.cons_append, at1_cons_succ _ _ d (by omega),
          at1_cons_succ _ _ e (by omega), at1_append_left _ _ d (by omega) (by omega),
          at1_append_left _ _ e (by omega) (by omega)] at h3
        exact h3

/-- The extraction loop, started with `i` values extracted (`E`), the active
region `W` of `n - i` cells and `r` rounds to run: it appends `r` values `E'` and
leaves an active region `W'`; together they are the cells of `W`; when `W` is a
min-heap, so is `W'`, and `E'` is sorted and below `W'`. -/
theorem pop_min_loop_spec (n r i : Nat) (E W T : List α) (hE : E.length = i)
    (hW : W.length = n - i) (hir : i + r ≤ n) :
    ∃ E' W' T', pop_min_loop n r i (E ++ List.replicate r default, W ++ T) = (E ++ E', W' ++ T') ∧
      E'.length = r ∧ W'.length = n - i - r ∧ (E' ++ W').Perm W ∧
      (1 ≤ r → E'.head? = some (at1 W 1)) ∧
      (IsMinHeap W → IsMinHeap W' ∧ E'.Sorted (· ≤ ·) ∧ ∀ a ∈ E', ∀ b ∈ W', a ≤ b) := by
  induction r generalizing i E W T with
  | zero =>
    refine ⟨[], W, T, by simp [pop_min_loop], rfl, by omega, by simp, by omega, ?_⟩
    intro h
    exact ⟨h, List.sorted_nil, by simp⟩
  | succ r ih =>
    have hWpos : 1 ≤ W.length := by omega
    obtain ⟨W1, T1, hstep, hW1, hperm1, hheap1⟩ := pop_step W T hWpos
    have hroot : at1 (W ++ T) 1 = at1 W 1 := at1_append_left W T 1 (le_refl _) hWpos
    have hset : (E ++ List.replicate (r + 1) default).set i (at1 W 1) =
        (E ++ [at1 W 1]) ++ List.replicate r (default : α) := by
      rw [List.set_append_right _ _ (by omega)]
      simp [hE, List.replicate_succ]
    obtain ⟨E2, W2, T2, hloop, hE2, hW2, hperm2, -, hheap2⟩ :=
      ih (i + 1) (E ++ [at1 W 1]) W1 T1 (by simp [hE]) (by omega) (by omega)
    refine ⟨at1 W 1 :: E2, W2, T2, ?_, by simp [hE2], by omega, ?_, by simp, ?_⟩
    · simp only [pop_min_loop]
      rw [hroot, hset]
      have e1 : n - i = W.length := hW.symm
      rw [e1, hstep, hloop]
      simp
    · exact (List.Perm.cons _ hperm2).trans hperm1
    · intro hheap
      obtain ⟨hh2, hs2, hb2⟩ := hheap2 (hheap1 hheap)
      have hmin := IsMinHeap_root_le W hheap
      have hsub : ∀ a, a ∈ E2 ++ W2 → a ∈ W := fun a ha =>
        hperm1.subset (List.mem_cons_of_mem _ (hperm2.subset ha))
      refine ⟨hh2, ?_, ?_⟩
      · rw [List.sorted_cons]
        exact ⟨fun b hb => hmin b (hsub b (List.mem_append_left _ hb)), hs2⟩
      · intro a ha b hb
        rcases List.mem_cons.mp ha with rfl | ha'
        · exact hmin b (hsub b (List.mem_append_right _ hb))
        · exact hb2 a ha' b hb

theorem pop_count_some (n : Nat) (count : Int) (hn : 1 ≤ n) (hk : 1 ≤ count) :
    pop_count n count = some (min count.toNat n) := by
  unfold pop_count
  rw [if_neg (by omega)]
  split
  · congr 1; omega
  · congr 1; omega

/-- Specification of `C_pop_minheap` on a non-empty array and a positive count. -/
theorem C_pop_minheap_spec (heap : List α) (count : Int) (hn : 1 ≤ heap.length)
    (hk : 1 ≤ count) :
    ∃ E W, C_pop_minheap heap count = some (E, W) ∧
      E.length = min count.toNat heap.length ∧
      W.length = heap.length - min count.toNat heap.length ∧ (E ++ W).Perm heap ∧
      E.head? = some (at1 heap 1) ∧
      (IsMinHeap heap → IsMinHeap W ∧ E.Sorted (· ≤ ·) ∧ ∀ a ∈ E, ∀ b ∈ W, a ≤ b) := by
  unfold C_pop_minheap
  simp only
  rw [pop_count_some _ _ hn hk]
  simp only
  obtain ⟨E, W, T, hloop, hE, hW, hperm, hhead, hheap⟩ :=
    pop_min_loop_spec heap.length (min count.toNat heap.length) 0 [] heap [] rfl rfl (by omega)
  simp only [List.nil_append, List.append_nil] at hloop
  rw [hloop]
  refine ⟨E, W, ?_, hE, by omega, hperm, hhead (by omega), hheap⟩
  simp only [Option.some.injEq, Prod.mk.injEq, true_and]
  rw [List.take_append_of_le_length (by omega), List.take_of_length_le (by omega)]

/-! ## Replacing the root (pushpop, poppush) -/

/-- Overwriting the root of a non-empty array with `v` and sifting it down at
full size: the cells are those of the array with the old root exchanged for `v`,
and a min-heap stays a min-heap. -/
theorem replace_root_spec (h : List α) (v : α) (hn : 1 ≤ h.length) :
    (dnheap_min (put1 h 1 v) 1 h.length).length = h.length ∧
    (dnheap_min (put1 h 1 v) 1 h.length).Perm (v :: h.erase (at1 h 1)) ∧
    (IsMinHeap h → IsMinHeap (dnheap_min (put1 h 1 v) 1 h.length)) := by
  refine ⟨by rw [length_dnheap_min, length_put1], ?_, ?_⟩
  · exact (dnheap_min_perm _ 1 _ (le_refl _) (by rw [length_put1])).trans
      (put1_perm_cons_erase h 1 v (le_refl _) hn)
  · intro hheap
    unfold IsMinHeap
    rw [length_dnheap_min, length_put1]
    apply dnheap_min_root _ _ (by rw [length_put1])
    intro c hc1 hc2 hc3
    rw [at1_put1 h 1 c v (le_refl _) hn (by omega),
      at1_put1 h 1 (c / 2) v (le_refl _) hn (by omega), if_neg hc3, if_neg (by omega)]
    exact hheap c hc1 hc2

theorem at1_one_mem (h : List α) (hn : 1 ≤ h.length) : at1 h 1 ∈ h :=
  (mem_iff_at1 h _).mpr ⟨1, le_refl _, hn, rfl⟩

/-! ## Bounded insert -/

/-- The scan for the largest leaf, started at `i` with the running maximum
`ml` found at `mp`: the result is the value of a cell in `[lo, n]` that is an
upper bound of the cells in `[lo, n]`. -/
theorem max_leaf_loop_spec (x : List α) (lo n r i : Nat) (ml : α) (mp : Nat)
    (hir : i + r = n + 1) (hlo : lo ≤ mp) (hmp : mp < i) (hml : at1 x mp = ml)
    (hub : ∀ q, lo ≤ q → q < i → at1 x q ≤ ml) :
    lo ≤ (max_leaf_loop x r i (ml, mp)).2 ∧ (max_leaf_loop x r i (ml, mp)).2 ≤ n ∧
    at1 x (max_leaf_loop x r i (ml, mp)).2 = (max_leaf_loop x r i (ml, mp)).1 ∧
    ∀ q, lo ≤ q → q ≤ n → at1 x q ≤ (max_leaf_loop x r i (ml, mp)).1 := by
  induction r generalizing i ml mp with
  | zero =>
    simp only [max_leaf_loop]
    exact ⟨hlo, by omega, hml, fun q h1 h2 => hub q h1 (by omega)⟩
  | succ r ih =>
    simp only [max_leaf_loop]
    split
    · rename_i hgt
      apply ih (i + 1) (at1 x i) i (by omega) (by omega) (by omega) rfl
      intro q h1 h2
      by_cases hq : q = i
      · subst hq; exact le_refl _
      · exact le_trans (hub q h1 (by omega)) (le_of_lt hgt)
    · rename_i hle
      apply ih (i + 1) ml mp (by omega) hlo (by omega) hml
      intro q h1 h2
      by_cases hq : q = i
      · subst hq; exact not_lt.mp hle
      · exact hub q h1 (by omega)

theorem max_leaf_scan_spec (x : List α) (hn : 1 ≤ x.length) :
    x.length / 2 + 1 ≤ (max_leaf_scan x).2 ∧ (max_leaf_scan x).2 ≤ x.length ∧
    at1 x (max_leaf_scan x).2 = (max_leaf_scan x).1 ∧
    ∀ q, x.length / 2 + 1 ≤ q → q ≤ x.length → at1 x q ≤ (max_leaf_scan x).1 := by
  unfold max_leaf_scan
  simp only
  apply max_leaf_loop_spec x (x.length / 2 + 1) x.length _ _ _ _ (by omega) (le_refl _)
    (by omega) rfl
  intro q h1 h2
  have : q = x.length / 2 + 1 := by omega
  subst this
  exact le_refl _

theorem C_insert_minheap_length (heap : List α) (val : α) :
    (C_insert_minheap heap val).length = heap.length := by
  unfold C_insert_minheap
  simp only
  split
  · rfl
  · split
    · rw [length_upheap_min, length_put1]
    · rfl

theorem C_insert_minheap_reject (heap : List α) (val : α)
    (hv : ∀ p, heap.length / 2 + 1 ≤ p → p ≤ heap.length → at1 heap p ≤ val) :
    C_insert_minheap heap val = heap := by
  unfold C_insert_minheap
  simp only
  split
  · rfl
  · rename_i hne
    obtain ⟨h1, h2, h3, -⟩ := max_leaf_scan_spec heap (by omega)
    have := hv _ h1 h2
    rw [h3] at this
    rw [if_neg (not_lt.mpr this)]

theorem C_insert_minheap_accept (heap : List α) (val w : α) (hn : 1 ≤ heap.length)
    (hw : ∃ p, heap.length / 2 + 1 ≤ p ∧ p ≤ heap.length ∧ at1 heap p = w)
    (hmax : ∀ p, heap.length / 2 + 1 ≤ p → p ≤ heap.length → at1 heap p ≤ w)
    (hv : val < w) :
    (C_insert_minheap heap val).Perm (val :: heap.erase w) ∧
    (IsMinHeap heap → IsMinHeap (C_insert_minheap heap val)) := by
  obtain ⟨h1, h2, h3, h4⟩ := max_leaf_scan_spec heap hn
  have hw' : (max_leaf_scan heap).1 = w := by
    obtain ⟨p, hp1, hp2, hp3⟩ := hw
    apply le_antisymm
    · rw [← h3]; exact hmax _ h1 h2
    · rw [← hp3]; exact h4 p hp1 hp2
  unfold C_insert_minheap
  simp only
  rw [if_neg (by omega), hw', if_pos hv]
  generalize (max_leaf_scan heap).2 = mp at h1 h2 h3
  rw [hw'] at h3
  constructor
  · have := put1_perm_cons_erase heap mp val (by omega) h2
    rw [h3] at this
    exact (upheap_min_perm _ _ (by rw [length_put1]; exact h2)).trans this
  · intro hheap
    unfold IsMinHeap
    rw [length_upheap_min, length_put1]
    apply upheap_min_leaf _ mp heap.length h2 (by rw [length_put1]) (by omega)
    intro c hc1 hc2 hc3
    rw [at1_put1 heap mp c val (by omega) h2 (by omega),
      at1_put1 heap mp (c / 2) val (by omega) h2 (by omega), if_neg hc3, if_neg (by omega)]
    exact hheap c hc1 hc2

/-! ## Claims -/

/-- C1: for every array `xs` (the empty one included), `C_minheap xs` has the
length of `xs`, is a permutation of `xs` and satisfies the Min heap invariant
(`value[p/2] <= value[p]` for every 1-based position `p > 1`); `C_maxheap xs` is
a permutation of `xs` of the same length with `value[p/2] >= value[p]` for every
`p > 1`. -/
theorem C1_build_is_heap (xs : List α) :
    ((C_minheap xs).length = xs.length ∧ (C_minheap xs).Perm xs ∧
      ∀ p, 1 < p → p ≤ (C_minheap xs).length →
        at1 (C_minheap xs) (p / 2) ≤ at1 (C_minheap xs) p) ∧
    ((C_maxheap xs).length = xs.length ∧ (C_maxheap xs).Perm xs ∧
      ∀ p, 1 < p → p ≤ (C_maxheap xs).length →
        at1 (C_maxheap xs) (p / 2) ≥ at1 (C_maxheap xs) p) := by
  refine ⟨⟨C_minheap_length xs, C_minheap_perm xs, C_minheap_isMinHeap xs⟩, ?_⟩
  rw [C_maxheap_eq_dual]
  exact ⟨C_minheap_length (α := αᵒᵈ) xs, C_minheap_perm (α := αᵒᵈ) xs,
    C_minheap_isMinHeap (α := αᵒᵈ) xs⟩
/-! ## Sorted extraction -/

/-- A sorted list `E` that lies below the rest `R` of a permutation of `h` is the
prefix of the sorted `h`. -/
theorem sorted_prefix (E R h : List α) (hperm : (E ++ R).Perm h) (hs : E.Sorted (· ≤ ·))
    (hb : ∀ a ∈ E, ∀ b ∈ R, a ≤ b) :
    E = (h.insertionSort (· ≤ ·)).take E.length := by
  have h1 : (E ++ R.insertionSort (· ≤ ·)).Sorted (· ≤ ·) := by
    unfold List.Sorted
    rw [List.pairwise_append]
    refine ⟨hs, List.sorted_insertionSort _ R, ?_⟩
    intro a ha b hb'
    exact hb a ha b ((List.perm_insertionSort _ R).subset hb')
  have h2 : (E ++ R.insertionSort (· ≤ ·)).Perm (h.insertionSort (· ≤ ·)) :=
    ((List.perm_insertionSort _ R).append_left E).trans
      (hperm.trans (List.perm_insertionSort _ h).symm)
  have h3 := List.eq_of_perm_of_sorted h2 h1 (List.sorted_insertionSort _ h)
  rw [← h3]
  simp

/-- Popping every element of a built min-heap sorts the array. -/
theorem pop_min_all (xs : List α) (hne : xs ≠ []) :
    C_pop_minheap (C_minheap xs) (xs.length : Int) = some (xs.insertionSort (· ≤ ·), []) := by
  have hlen := C_minheap_length xs
  have hpos : 1 ≤ xs.length := List.length_pos.mpr hne
  obtain ⟨E, W, hpop, hE, hW, hperm, -, hheap⟩ :=
    C_pop_minheap_spec (C_minheap xs) (xs.length : Int) (by omega) (by omega)
  obtain ⟨-, hs, hb⟩ := hheap (C_minheap_isMinHeap xs)
  have hW0 : W = [] := List.length_eq_zero.mp (by rw [hW, hlen]; simp)
  subst hW0
  have hpre := sorted_prefix E [] xs (hperm.trans (C_minheap_perm xs)) hs hb
  have hEl : E.length = xs.length := by rw [hE, hlen]; simp
  rw [hEl, List.take_of_length_le (by rw [List.length_insertionSort])] at hpre
  rw [hpop, hpre]

/-- C2: for every non-empty array `xs` of length `n`, `pop(build(xs, Min), n)`
extracts exactly `xs` sorted in non-decreasing order (a sorted permutation of
`xs`) and leaves an empty residual heap, and `pop(build(xs, Max), n)` extracts
`xs` sorted in non-increasing order; on `[5,3,8,1]` the extracted values are
`[1,3,5,8]` for Min and `[8,5,3,1]` for Max. -/
theorem C2_build_then_pop_sorts (xs : List α) (hne : xs ≠ []) :
    (C_pop_minheap (C_minheap xs) (xs.length : Int) = some (xs.insertionSort (· ≤ ·), []) ∧
      (xs.insertionSort (· ≤ ·)).Perm xs ∧ (xs.insertionSort (· ≤ ·)).Sorted (· ≤ ·)) ∧
    (C_pop_maxheap (C_maxheap xs) (xs.length : Int) = some (xs.insertionSort (· ≥ ·), []) ∧
      (xs.insertionSort (· ≥ ·)).Perm xs ∧ (xs.insertionSort (· ≥ ·)).Sorted (· ≥ ·)) ∧
    C_pop_minheap (C_minheap ([5, 3, 8, 1] : List Int)) 4 = some ([1, 3, 5, 8], []) ∧
    C_pop_maxheap (C_maxheap ([5, 3, 8, 1] : List Int)) 4 = some ([8, 5, 3, 1], []) := by
  refine ⟨⟨pop_min_all xs hne, List.perm_insertionSort _ xs, List.sorted_insertionSort _ xs⟩,
    ⟨?_, List.perm_insertionSort _ xs, List.sorted_insertionSort _ xs⟩, by decide, by decide⟩
  rw [C_maxheap_eq_dual, C_pop_maxheap_eq_dual]
  exact pop_min_all (α := αᵒᵈ) xs hne

/-- Instance of C2 at the array `[5, 3, 8, 1]`. -/
theorem C2_build_then_pop_sorts_witness :
    ([5, 3, 8, 1] : List Int) ≠ [] ∧
    C_pop_minheap (C_minheap ([5, 3, 8, 1] : List Int)) 4 =
      some (([5, 3, 8, 1] : List Int).insertionSort (· ≤ ·), []) ∧
    C_pop_maxheap (C_maxheap ([5, 3, 8, 1] : List Int)) 4 =
      some (([5, 3, 8, 1] : List Int).insertionSort (· ≥ ·), []) :=
  ⟨by decide, (C2_build_then_pop_sorts ([5, 3, 8, 1] : List Int) (by decide)).1.1,
    (C2_build_then_pop_sorts ([5, 3, 8, 1] : List Int) (by decide)).2.1.1⟩

/-- C3: for every valid Min heap `h` (resp. Max heap `g`) of length `n` and
every sequence `vs` of length `m`, the pushed array has length `n + m`, its
multiset of elements is `multiset(h) + multiset(vs)`, and it satisfies the Min
(resp. Max) heap invariant. -/
theorem C3_push_multiset_and_invariant (h g vs : List α) (hh : IsMinHeap h)
    (hg : IsMaxHeap g) :
    ((C_push_minheap h vs).length = h.length + vs.length ∧
      ((C_push_minheap h vs : List α) : Multiset α) = (h : Multiset α) + (vs : Multiset α) ∧
      IsMinHeap (C_push_minheap h vs)) ∧
    ((C_push_maxheap g vs).length = g.length + vs.length ∧
      ((C_push_maxheap g vs : List α) : Multiset α) = (g : Multiset α) + (vs : Multiset α) ∧
      IsMaxHeap (C_push_maxheap g vs)) := by
  have key : ∀ (β : Type) [LinearOrder β] [Inhabited β] (h vs : List β), IsMinHeap h →
      (C_push_minheap h vs).length = h.length + vs.length ∧
      ((C_push_minheap h vs : List β) : Multiset β) = (h : Multiset β) + (vs : Multiset β) ∧
      IsMinHeap (C_push_minheap h vs) := by
    intro β _ _ h vs hh
    have hp := C_push_minheap_perm h vs hh
    refine ⟨by rw [hp.length_eq, List.length_append], ?_, C_push_minheap_isMinHeap h vs hh⟩
    rw [Multiset.coe_add, Multiset.coe_eq_coe]
    exact hp
  refine ⟨key α h vs hh, ?_⟩
  rw [C_push_maxheap_eq_dual]
  exact key αᵒᵈ g vs hg

/-- Instance of C3 at the Min heap `[1, 3, 2]`, the Max heap `[3, 1, 2]` and the
values `[0, 5]`. -/
theorem C3_push_multiset_and_invariant_witness :
    (IsMinHeap ([1, 3, 2] : List Int) ∧ IsMaxHeap ([3, 1, 2] : List Int)) ∧
    ((C_push_minheap ([1, 3, 2] : List Int) [0, 5]).length = 3 + 2 ∧
      ((C_push_minheap ([1, 3, 2] : List Int) [0, 5] : List Int) : Multiset Int) =
        (([1, 3, 2] : List Int) : Multiset Int) + (([0, 5] : List Int) : Multiset Int) ∧
      IsMinHeap (C_push_minheap ([1, 3, 2] : List Int) [0, 5])) ∧
    ((C_push_maxheap ([3, 1, 2] : List Int) [0, 5]).length = 3 + 2 ∧
      ((C_push_maxheap ([3, 1, 2] : List Int) [0, 5] : List Int) : Multiset Int) =
        (([3, 1, 2] : List Int) : Multiset Int) + (([0, 5] : List Int) : Multiset Int) ∧
      IsMaxHeap (C_push_maxheap ([3, 1, 2] : List Int) [0, 5])) :=
  ⟨⟨by decide, by decide⟩,
    C3_push_multiset_and_invariant ([1, 3, 2] : List Int) [3, 1, 2] [0, 5] (by decide)
      (by decide)⟩
/-- C4: for every non-empty array `h` of length `n` (a valid heap or not) and
every count `k >= 1`, with `k' = min(k, n)`, pop returns an extracted sequence
of length `k'` and a residual of length `n - k'` whose multisets add up to the
multiset of `h`; so a heap rebuilt from `extracted ++ residual` has the multiset
of `h`.  Both for the Min and the Max variant. -/
theorem C4_pop_splits_multiset (h : List α) (k : Int) (hne : h ≠ []) (hk : 1 ≤ k) :
    (∃ E R, C_pop_minheap h k = some (E, R) ∧
      E.length = min k.toNat h.length ∧ R.length = h.length - min k.toNat h.length ∧
      (E : Multiset α) + (R : Multiset α) = (h : Multiset α) ∧
      ((C_minheap (E ++ R) : List α) : Multiset α) = (h : Multiset α)) ∧
    (∃ E R, C_pop_maxheap h k = some (E, R) ∧
      E.length = min k.toNat h.length ∧ R.length = h.length - min k.toNat h.length ∧
      (E : Multiset α) + (R : Multiset α) = (h : Multiset α) ∧
      ((C_maxheap (E ++ R) : List α) : Multiset α) = (h : Multiset α)) := by
  have key : ∀ (β : Type) [LinearOrder β] [Inhabited β] (h : List β), h ≠ [] →
      ∃ E R, C_pop_minheap h k = some (E, R) ∧
      E.length = min k.toNat h.length ∧ R.length = h.length - min k.toNat h.length ∧
      (E : Multiset β) + (R : Multiset β) = (h : Multiset β) ∧
      ((C_minheap (E ++ R) : List β) : Multiset β) = (h : Multiset β) := by
    intro β _ _ h hne
    obtain ⟨E, W, hpop, hE, hW, hperm, -, -⟩ :=
      C_pop_minheap_spec h k (List.length_pos.mpr hne) hk
    refine ⟨E, W, hpop, hE, hW, ?_, ?_⟩
    · rw [Multiset.coe_add, Multiset.coe_eq_coe]; exact hperm
    · rw [Multiset.coe_eq_coe]; exact (C_minheap_perm _).trans hperm
  refine ⟨key α h hne, ?_⟩
  obtain ⟨E, R, h1, h2, h3, h4, h5⟩ := key αᵒᵈ h hne
  refine ⟨E, R, ?_, h2, h3, h4, ?_⟩
  · rw [C_pop_maxheap_eq_dual]; exact h1
  · rw [C_maxheap_eq_dual]; exact h5

/-- Instance of C4 at the array `[4, 1, 3]` (not a heap) and the count `2`. -/
theorem C4_pop_splits_multiset_witness :
    (([4, 1, 3] : List Int) ≠ [] ∧ (1 : Int) ≤ 2) ∧
    (∃ E R, C_pop_minheap ([4, 1, 3] : List Int) 2 = some (E, R) ∧
      E.length = min (2 : Int).toNat ([4, 1, 3] : List Int).length ∧
      R.length = ([4, 1, 3] : List Int).length - min (2 : Int).toNat ([4, 1, 3] : List Int).length ∧
      (E : Multiset Int) + (R : Multiset Int) = (([4, 1, 3] : List Int) : Multiset Int) ∧
      ((C_minheap (E ++ R) : List Int) : Multiset Int) = (([4, 1, 3] : List Int) : Multiset Int)) :=
  ⟨⟨by decide, by decide⟩, (C4_pop_splits_multiset ([4, 1, 3] : List Int) 2 (by decide)
    (by decide)).1⟩

/-- Extraction from a valid non-empty min-heap with a positive count. -/
theorem pop_min_valid (h : List α) (k : Int) (hh : IsMinHeap h) (hn : 1 ≤ h.length)
    (hk : 1 ≤ k) :
    ∃ E R, C_pop_minheap h k = some (E, R) ∧
      R = ((pop_min_loop h.length (min k.toNat h.length) 0
        (List.replicate (min k.toNat h.length) default, h)).2).take
          (h.length - min k.toNat h.length) ∧
      R.length = h.length - min k.toNat h.length ∧ IsMinHeap R ∧
      E.Sorted (· ≤ ·) ∧
      (∃ m, E.head? = some m ∧ m ∈ h ∧ ∀ a ∈ h, m ≤ a) ∧
      (∀ a ∈ E, ∀ b ∈ R, a ≤ b) ∧
      E = (h.insertionSort (· ≤ ·)).take (min k.toNat h.length) := by
  obtain ⟨E, W, hpop, hE, hW, hperm, hhead, hheap⟩ := C_pop_minheap_spec h k hn hk
  obtain ⟨hWh, hs, hb⟩ := hheap hh
  refine ⟨E, W, hpop, ?_, hW, hWh, hs, ⟨at1 h 1, hhead, at1_one_mem h hn,
    IsMinHeap_root_le h hh⟩, hb, ?_⟩
  · have h2 := hpop
    unfold C_pop_minheap at h2
    simp only [pop_count_some _ _ hn hk] at h2
    have h3 := Option.some.inj h2
    exact (congrArg Prod.snd h3).symm
  · have := sorted_prefix E W h hperm hs hb
    rwa [hE] at this

/-- C5: for every valid Min heap `h` of length `n >= 1` and every `k >= 1`, the
sequence extracted by pop is sorted non-decreasing, its first element is the
minimum of `h`, every extracted value is `<=` every element of the residual, and
the extracted values are the `min(k,n)` smallest of `h` (the prefix of that
length of the sorted `h`); symmetrically for a valid Max heap `g`, with
non-increasing, maximum and `>=`. -/
theorem C5_pop_extracts_sorted_extrema (h g : List α) (k : Int) (hh : IsMinHeap h)
    (hg : IsMaxHeap g) (hhn : 1 ≤ h.length) (hgn : 1 ≤ g.length) (hk : 1 ≤ k) :
    (∃ E R, C_pop_minheap h k = some (E, R) ∧ E.Sorted (· ≤ ·) ∧
      (∃ m, E.head? = some m ∧ m ∈ h ∧ ∀ a ∈ h, m ≤ a) ∧
      (∀ a ∈ E, ∀ b ∈ R, a ≤ b) ∧
      E = (h.insertionSort (· ≤ ·)).take (min k.toNat h.length)) ∧
    (∃ E R, C_pop_maxheap g k = some (E, R) ∧ E.Sorted (· ≥ ·) ∧
      (∃ m, E.head? = some m ∧ m ∈ g ∧ ∀ a ∈ g, m ≥ a) ∧
      (∀ a ∈ E, ∀ b ∈ R, a ≥ b) ∧
      E = (g.insertionSort (· ≥ ·)).take (min k.toNat g.length)) := by
  constructor
  · obtain ⟨E, R, h1, -, -, -, h5, h6, h7, h8⟩ := pop_min_valid h k hh hhn hk
    exact ⟨E, R, h1, h5, h6, h7, h8⟩
  · obtain ⟨E, R, h1, -, -, -, h5, h6, h7, h8⟩ := pop_min_valid (α := αᵒᵈ) g k hg hgn hk
    refine ⟨E, R, ?_, h5, h6, h7, h8⟩
    rw [C_pop_maxheap_eq_dual]; exact h1

/-- Instance of C5 at the Min heap `[1, 3, 2, 4]`, the Max heap `[4, 3, 2, 1]`
and the count `2`. -/
theorem C5_pop_extracts_sorted_extrema_witness :
    (IsMinHeap ([1, 3, 2, 4] : List Int) ∧ IsMaxHeap ([4, 3, 2, 1] : List Int) ∧
      1 ≤ ([1, 3, 2, 4] : List Int).length ∧ 1 ≤ ([4, 3, 2, 1] : List Int).length ∧
      (1 : Int) ≤ 2) ∧
    (∃ E R, C_pop_minheap ([1, 3, 2, 4] : List Int) 2 = some (E, R) ∧ E.Sorted (· ≤ ·) ∧
      (∃ m, E.head? = some m ∧ m ∈ ([1, 3, 2, 4] : List Int) ∧
        ∀ a ∈ ([1, 3, 2, 4] : List Int), m ≤ a) ∧
      (∀ a ∈ E, ∀ b ∈ R, a ≤ b) ∧
      E = (([1, 3, 2, 4] : List Int).insertionSort (· ≤ ·)).take
        (min (2 : Int).toNat ([1, 3, 2, 4] : List Int).length)) :=
  ⟨⟨by decide, by decide, by decide, by decide, by decide⟩,
    (C5_pop_extracts_sorted_extrema ([1, 3, 2, 4] : List Int) [4, 3, 2, 1] 2 (by decide)
      (by decide) (by decide) (by decide) (by decide)).1⟩

/-- C6: for every valid Min heap `h` (resp. Max heap `g`) of length `n >= 1` and
every `k >= 1`, the residual returned by pop, which is the first `n - min(k,n)`
positions of the working copy after the extraction loop, satisfies the Min
(resp. Max) heap invariant. -/
theorem C6_pop_residual_is_heap (h g : List α) (k : Int) (hh : IsMinHeap h)
    (hg : IsMaxHeap g) (hhn : 1 ≤ h.length) (hgn : 1 ≤ g.length) (hk : 1 ≤ k) :
    (∃ E R, C_pop_minheap h k = some (E, R) ∧
      R = ((pop_min_loop h.length (min k.toNat h.length) 0
        (List.replicate (min k.toNat h.length) default, h)).2).take
          (h.length - min k.toNat h.length) ∧
      R.length = h.length - min k.toNat h.length ∧ IsMinHeap R) ∧
    (∃ E R, C_pop_maxheap g k = some (E, R) ∧
      R = ((pop_max_loop g.length (min k.toNat g.length) 0
        (List.replicate (min k.toNat g.length) default, g)).2).take
          (g.length - min k.toNat g.length) ∧
      R.length = g.length - min k.toNat g.length ∧ IsMaxHeap R) := by
  constructor
  · obtain ⟨E, R, h1, h2, h3, h4, -⟩ := pop_min_valid h k hh hhn hk
    exact ⟨E, R, h1, h2, h3, h4⟩
  · obtain ⟨E, R, h1, h2, h3, h4, -⟩ := pop_min_valid (α := αᵒᵈ) g k hg hgn hk
    refine ⟨E, R, ?_, ?_, h3, h4⟩
    · rw [C_pop_maxheap_eq_dual]; exact h1
    · rw [pop_max_loop_eq_dual]; exact h2

/-- Instance of C6 at the Min heap `[1, 3, 2, 4]`, the Max heap `[4, 3, 2, 1]`
and the count `2`. -/
theorem C6_pop_residual_is_heap_witness :
    (IsMinHeap ([1, 3, 2, 4] : List Int) ∧ IsMaxHeap ([4, 3, 2, 1] : List Int) ∧
      1 ≤ ([1, 3, 2, 4] : List Int).length ∧ 1 ≤ ([4, 3, 2, 1] : List Int).length ∧
      (1 : Int) ≤ 2) ∧
    (∃ E R, C_pop_maxheap ([4, 3, 2, 1] : List Int) 2 = some (E, R) ∧
      R = ((pop_max_loop ([4, 3, 2, 1] : List Int).length
        (min (2 : Int).toNat ([4, 3, 2, 1] : List Int).length) 0
        (List.replicate (min (2 : Int).toNat ([4, 3, 2, 1] : List Int).length) default,
          [4, 3, 2, 1])).2).take
          (([4, 3, 2, 1] : List Int).length - min (2 : Int).toNat ([4, 3, 2, 1] : List Int).length) ∧
      R.length = ([4, 3, 2, 1] : List Int).length -
        min (2 : Int).toNat ([4, 3, 2, 1] : List Int).length ∧ IsMaxHeap R) :=
  ⟨⟨by decide, by decide, by decide, by decide, by decide⟩,
    (C6_pop_residual_is_heap ([1, 3, 2, 4] : List Int) [4, 3, 2, 1] 2 (by decide)
      (by decide) (by decide) (by decide) (by decide)).2⟩
/-- Exchange of one element, in additive form. -/
theorem coe_cons_erase_add (h : List α) (r v : α) (hr : r ∈ h) :
    ((v :: h.erase r : List α) : Multiset α) + {r} = (h : Multiset α) + {v} := by
  have h1 : (r :: h.erase r).Perm h := (List.perm_cons_erase hr).symm
  have h2 : ((v :: h.erase r) ++ [r]).Perm (h ++ [v]) := by
    have h3 : ((v :: h.erase r) ++ [r]).Perm (v :: r :: h.erase r) := by
      simp only [List.cons_append]
      exact List.Perm.cons _ (List.perm_append_singleton r _)
    exact (h3.trans (List.Perm.cons v h1)).trans (List.perm_append_singleton v h).symm
  have h4 := Multiset.coe_eq_coe.mpr h2
  rw [← Multiset.coe_add, ← Multiset.coe_add] at h4
  exact h4

/-- From the additive form of an exchange to the form with a difference. -/
theorem exchange_sub_form (M' M : Multiset α) (r v : α) (hr : r ∈ M)
    (h : M' + {r} = M + {v}) : M' = M - {r} + {v} := by
  have h1 : M' = M + {v} - {r} := by rw [← h, add_tsub_cancel_right]
  rw [h1, tsub_add_eq_add_tsub (Multiset.singleton_le.mpr hr)]

/-- The replace-root branch shared by pushpop and poppush, on a valid non-empty
min-heap. -/
theorem replace_root_valid (h : List α) (v : α) (hh : IsMinHeap h) (hn : 1 ≤ h.length) :
    (dnheap_min (put1 h 1 v) 1 h.length).length = h.length ∧
    IsMinHeap (dnheap_min (put1 h 1 v) 1 h.length) ∧
    ((dnheap_min (put1 h 1 v) 1 h.length : List α) : Multiset α) + {at1 h 1} =
      (h : Multiset α) + {v} ∧
    at1 (dnheap_min (put1 h 1 v) 1 h.length) 1 ∈ dnheap_min (put1 h 1 v) 1 h.length ∧
    ∀ a ∈ dnheap_min (put1 h 1 v) 1 h.length, at1 (dnheap_min (put1 h 1 v) 1 h.length) 1 ≤ a := by
  obtain ⟨h1, h2, h3⟩ := replace_root_spec h v hn
  refine ⟨h1, h3 hh, ?_, at1_one_mem _ (by omega), IsMinHeap_root_le _ (h3 hh)⟩
  rw [← coe_cons_erase_add h _ v (at1_one_mem h hn), Multiset.coe_eq_coe.mpr h2]

theorem pushpop_min_valid (h : List α) (v : α) (hh : IsMinHeap h) (hne : h ≠ []) :
    (v ≤ at1 h 1 → C_pushpop_minheap h v = (v, h)) ∧
    (at1 h 1 < v → ∃ h', C_pushpop_minheap h v = (at1 h 1, h') ∧ h'.length = h.length ∧
      IsMinHeap h' ∧ (h' : Multiset α) + {at1 h 1} = (h : Multiset α) + {v} ∧
      at1 h' 1 ∈ h' ∧ ∀ a ∈ h', at1 h' 1 ≤ a) := by
  have hn : 1 ≤ h.length := List.length_pos.mpr hne
  constructor
  · intro hv
    unfold C_pushpop_minheap
    simp only
    rw [if_neg (by omega), if_pos hv]
  · intro hv
    refine ⟨dnheap_min (put1 h 1 v) 1 h.length, ?_, replace_root_valid h v hh hn⟩
    unfold C_pushpop_minheap
    simp only
    rw [if_neg (by omega), if_neg (not_le.mpr hv)]

/-- C7: for every valid non-empty Min heap `h` with root `r = h[1]` and every
value `v`: if `v <= r`, pushpop returns `(v, h)` with `h` unchanged; if `v > r`,
it returns `(r, h')` where `h'` has the length of `h`, satisfies the Min heap
invariant, has the multiset `multiset(h) - {r} + {v}`, and the root of `h'` is
the minimum of that multiset.  Symmetrically for a valid non-empty Max heap `g`
with `v >= r` / `v < r` and the maximum. -/
theorem C7_pushpop_conditional (h g : List α) (v : α) (hh : IsMinHeap h) (hg : IsMaxHeap g)
    (hhne : h ≠ []) (hgne : g ≠ []) :
    ((v ≤ at1 h 1 → C_pushpop_minheap h v = (v, h)) ∧
      (v > at1 h 1 → ∃ h', C_pushpop_minheap h v = (at1 h 1, h') ∧ h'.length = h.length ∧
        IsMinHeap h' ∧ (h' : Multiset α) = (h : Multiset α) - {at1 h 1} + {v} ∧
        at1 h' 1 ∈ h' ∧ ∀ a ∈ h', at1 h' 1 ≤ a)) ∧
    ((v ≥ at1 g 1 → C_pushpop_maxheap g v = (v, g)) ∧
      (v < at1 g 1 → ∃ g', C_pushpop_maxheap g v = (at1 g 1, g') ∧ g'.length = g.length ∧
        IsMaxHeap g' ∧ (g' : Multiset α) = (g : Multiset α) - {at1 g 1} + {v} ∧
        at1 g' 1 ∈ g' ∧ ∀ a ∈ g', at1 g' 1 ≥ a)) := by
  have hr : at1 h 1 ∈ (h : Multiset α) := at1_one_mem h (List.length_pos.mpr hhne)
  have hr' : at1 g 1 ∈ (g : Multiset α) := at1_one_mem g (List.length_pos.mpr hgne)
  obtain ⟨a1, a2⟩ := pushpop_min_valid h v hh hhne
  obtain ⟨b1, b2⟩ := pushpop_min_valid (α := αᵒᵈ) g v hg hgne
  rw [C_pushpop_maxheap_eq_dual]
  refine ⟨⟨a1, fun hv => ?_⟩, ⟨b1, fun hv => ?_⟩⟩
  · obtain ⟨h', e1, e2, e3, e4, e5⟩ := a2 hv
    exact ⟨h', e1, e2, e3, exchange_sub_form _ _ _ _ hr e4, e5⟩
  · obtain ⟨g', e1, e2, e3, e4, e5⟩ := b2 hv
    exact ⟨g', e1, e2, e3, exchange_sub_form _ _ _ _ hr' e4, e5⟩

/-- Instance of C7 at the Min heap `[1, 3, 2]` and the Max heap `[3, 1, 2]`
with the value `2`, which replaces the root of the Min heap. -/
theorem C7_pushpop_conditional_witness :
    (IsMinHeap ([1, 3, 2] : List Int) ∧ IsMaxHeap ([3, 1, 2] : List Int) ∧
      ([1, 3, 2] : List Int) ≠ [] ∧ ([3, 1, 2] : List Int) ≠ [] ∧
      (2 : Int) > at1 ([1, 3, 2] : List Int) 1) ∧
    (∃ h', C_pushpop_minheap ([1, 3, 2] : List Int) 2 = (at1 ([1, 3, 2] : List Int) 1, h') ∧
      h'.length = ([1, 3, 2] : List Int).length ∧ IsMinHeap h' ∧
      (h' : Multiset Int) =
        (([1, 3, 2] : List Int) : Multiset Int) - {at1 ([1, 3, 2] : List Int) 1} + {2} ∧
      at1 h' 1 ∈ h' ∧ ∀ a ∈ h', at1 h' 1 ≤ a) :=
  ⟨⟨by decide, by decide, by decide, by decide, by decide⟩,
    (C7_pushpop_conditional ([1, 3, 2] : List Int) [3, 1, 2] 2 (by decide) (by decide)
      (by decide) (by decide)).1.2 (by decide)⟩

theorem poppush_min_valid (h : List α) (v : α) (hh : IsMinHeap h) (hne : h ≠ []) :
    ∃ h', C_poppush_minheap h v = (at1 h 1, h') ∧ h'.length = h.length ∧
      IsMinHeap h' ∧ (h' : Multiset α) + {at1 h 1} = (h : Multiset α) + {v} := by
  have hn : 1 ≤ h.length := List.length_pos.mpr hne
  obtain ⟨h1, h2, h3, -⟩ := replace_root_valid h v hh hn
  refine ⟨dnheap_min (put1 h 1 v) 1 h.length, ?_, h1, h2, h3⟩
  unfold C_poppush_minheap
  simp only
  rw [if_neg (by omega)]

/-- C8: for every valid non-empty Min heap `h` (resp. Max heap `g`) and every
value `v`, whatever the order between `v` and the root, poppush returns the old
root `h[1]` as the extracted value together with a heap `h'` of the same length
that satisfies the heap invariant and has the multiset
`multiset(h) - {h[1]} + {v}`. -/
theorem C8_poppush_unconditional (h g : List α) (v : α) (hh : IsMinHeap h)
    (hg : IsMaxHeap g) (hhne : h ≠ []) (hgne : g ≠ []) :
    (∃ h', C_poppush_minheap h v = (at1 h 1, h') ∧ h'.length = h.length ∧
      IsMinHeap h' ∧ (h' : Multiset α) = (h : Multiset α) - {at1 h 1} + {v}) ∧
    (∃ g', C_poppush_maxheap g v = (at1 g 1, g') ∧ g'.length = g.length ∧
      IsMaxHeap g' ∧ (g' : Multiset α) = (g : Multiset α) - {at1 g 1} + {v}) := by
  have hr : at1 h 1 ∈ (h : Multiset α) := at1_one_mem h (List.length_pos.mpr hhne)
  have hr' : at1 g 1 ∈ (g : Multiset α) := at1_one_mem g (List.length_pos.mpr hgne)
  obtain ⟨h', a1, a2, a3, a4⟩ := poppush_min_valid h v hh hhne
  obtain ⟨g', b1, b2, b3, b4⟩ := poppush_min_valid (α := αᵒᵈ) g v hg hgne
  rw [C_poppush_maxheap_eq_dual]
  exact ⟨⟨h', a1, a2, a3, exchange_sub_form _ _ _ _ hr a4⟩,
    ⟨g', b1, b2, b3, exchange_sub_form _ _ _ _ hr' b4⟩⟩

/-- Instance of C8 at the Min heap `[1, 3, 2]` and the Max heap `[3, 1, 2]`
with the value `0`, which is below both roots. -/
theorem C8_poppush_unconditional_witness :
    (IsMinHeap ([1, 3, 2] : List Int) ∧ IsMaxHeap ([3, 1, 2] : List Int) ∧
      ([1, 3, 2] : List Int) ≠ [] ∧ ([3, 1, 2] : List Int) ≠ []) ∧
    (∃ h', C_poppush_minheap ([1, 3, 2] : List Int) 0 = (at1 ([1, 3, 2] : List Int) 1, h') ∧
      h'.length = ([1, 3, 2] : List Int).length ∧ IsMinHeap h' ∧
      (h' : Multiset Int) =
        (([1, 3, 2] : List Int) : Multiset Int) - {at1 ([1, 3, 2] : List Int) 1} + {0}) :=
  ⟨⟨by decide, by decide, by decide, by decide⟩,
    (C8_poppush_unconditional ([1, 3, 2] : List Int) [3, 1, 2] 0 (by decide) (by decide)
      (by decide) (by decide)).1⟩

/-- C9: for every array `h` (a valid heap or not) and every candidate `v`,
bounded insert returns an array of the length of `h`; and if `v` is worse than
or equal to every leaf value of `h` (Min: `v >= h[p]` for every `p` in
`[n/2+1, n]`; Max: `v <= h[p]` for every such `p`), the returned array is `h`
itself, element for element. -/
theorem C9_insert_keeps_size_and_rejects (h : List α) (v : α) :
    ((C_insert_minheap h v).length = h.length ∧
      ((∀ p, h.length / 2 + 1 ≤ p → p ≤ h.length → v ≥ at1 h p) →
        C_insert_minheap h v = h)) ∧
    ((C_insert_maxheap h v).length = h.length ∧
      ((∀ p, h.length / 2 + 1 ≤ p → p ≤ h.length → v ≤ at1 h p) →
        C_insert_maxheap h v = h)) := by
  refine ⟨⟨C_insert_minheap_length h v, C_insert_minheap_reject h v⟩, ?_⟩
  rw [C_insert_maxheap_eq_dual]
  exact ⟨C_insert_minheap_length (α := αᵒᵈ) h v, C_insert_minheap_reject (α := αᵒᵈ) h v⟩

/-- Instance of C9 at the array `[1, 3, 2]` with the candidate `3`, equal to the
largest leaf: the array is returned as it is. -/
theorem C9_insert_keeps_size_and_rejects_witness :
    (∀ p, ([1, 3, 2] : List Int).length / 2 + 1 ≤ p → p ≤ ([1, 3, 2] : List Int).length →
      (3 : Int) ≥ at1 ([1, 3, 2] : List Int) p) ∧
    C_insert_minheap ([1, 3, 2] : List Int) 3 = [1, 3, 2] :=
  have hleaf : ∀ p, ([1, 3, 2] : List Int).length / 2 + 1 ≤ p →
      p ≤ ([1, 3, 2] : List Int).length → (3 : Int) ≥ at1 ([1, 3, 2] : List Int) p := by
    intro p h1 h2
    have h1' : 2 ≤ p := h1
    have h2' : p ≤ 3 := h2
    interval_cases p <;> decide
  ⟨hleaf, (C9_insert_keeps_size_and_rejects ([1, 3, 2] : List Int) 3).1.2 hleaf⟩

theorem insert_min_valid (h : List α) (v w : α) (hh : IsMinHeap h) (hne : h ≠ [])
    (hw : ∃ p, h.length / 2 + 1 ≤ p ∧ p ≤ h.length ∧ at1 h p = w)
    (hmax : ∀ p, h.length / 2 + 1 ≤ p → p ≤ h.length → at1 h p ≤ w) (hv : v < w) :
    IsMinHeap (C_insert_minheap h v) ∧
    ((C_insert_minheap h v : List α) : Multiset α) + {w} = (h : Multiset α) + {v} := by
  obtain ⟨h1, h2⟩ := C_insert_minheap_accept h v w (List.length_pos.mpr hne) hw hmax hv
  refine ⟨h2 hh, ?_⟩
  have hmem : w ∈ h := by
    obtain ⟨p, hp1, hp2, rfl⟩ := hw
    exact (mem_iff_at1 h _).mpr ⟨p, by omega, hp2, rfl⟩
  rw [← coe_cons_erase_add h w v hmem, Multiset.coe_eq_coe.mpr h1]

/-- C10: for every valid non-empty Min heap `h` with largest leaf value `w`
(taken over the positions `[n/2+1, n]`) and every candidate `v < w`, bounded
insert returns a heap that satisfies the Min heap invariant and has the multiset
`multiset(h) - {w} + {v}`; symmetrically for a valid non-empty Max heap `g` with
smallest leaf value `u` and a candidate `t > u`. -/
theorem C10_insert_replaces_worst_leaf (h g : List α) (v w t u : α) (hh : IsMinHeap h)
    (hg : IsMaxHeap g) (hhne : h ≠ []) (hgne : g ≠ [])
    (hw : ∃ p, h.length / 2 + 1 ≤ p ∧ p ≤ h.length ∧ at1 h p = w)
    (hwmax : ∀ p, h.length / 2 + 1 ≤ p → p ≤ h.length → at1 h p ≤ w) (hv : v < w)
    (hu : ∃ p, g.length / 2 + 1 ≤ p ∧ p ≤ g.length ∧ at1 g p = u)
    (humin : ∀ p, g.length / 2 + 1 ≤ p → p ≤ g.length → at1 g p ≥ u) (ht : t > u) :
    (IsMinHeap (C_insert_minheap h v) ∧
      ((C_insert_minheap h v : List α) : Multiset α) = (h : Multiset α) - {w} + {v}) ∧
    (IsMaxHeap (C_insert_maxheap g t) ∧
      ((C_insert_maxheap g t : List α) : Multiset α) = (g : Multiset α) - {u} + {t}) := by
  have hr : w ∈ (h : Multiset α) := by
    obtain ⟨p, hp1, hp2, rfl⟩ := hw
    exact (mem_iff_at1 h _).mpr ⟨p, by omega, hp2, rfl⟩
  have hr' : u ∈ (g : Multiset α) := by
    obtain ⟨p, hp1, hp2, rfl⟩ := hu
    exact (mem_iff_at1 g _).mpr ⟨p, by omega, hp2, rfl⟩
  obtain ⟨a1, a2⟩ := insert_min_valid h v w hh hhne hw hwmax hv
  obtain ⟨b1, b2⟩ := insert_min_valid (α := αᵒᵈ) g t u hg hgne hu humin ht
  rw [C_insert_maxheap_eq_dual]
  exact ⟨⟨a1, exchange_sub_form _ _ _ _ hr a2⟩, ⟨b1, exchange_sub_form _ _ _ _ hr' b2⟩⟩

/-- Instance of C10 at the Min heap `[1, 3, 2]` (largest leaf `3`, candidate
`0`) and the Max heap `[3, 1, 2]` (smallest leaf `1`, candidate `5`). -/
theorem C10_insert_replaces_worst_leaf_witness :
    (IsMinHeap ([1, 3, 2] : List Int) ∧ IsMaxHeap ([3, 1, 2] : List Int) ∧
      (0 : Int) < 3 ∧ (5 : Int) > 1) ∧
    (IsMinHeap (C_insert_minheap ([1, 3, 2] : List Int) 0) ∧
      ((C_insert_minheap ([1, 3, 2] : List Int) 0 : List Int) : Multiset Int) =
        (([1, 3, 2] : List Int) : Multiset Int) - {3} + {0}) ∧
    (IsMaxHeap (C_insert_maxheap ([3, 1, 2] : List Int) 5) ∧
      ((C_insert_maxheap ([3, 1, 2] : List Int) 5 : List Int) : Multiset Int) =
        (([3, 1, 2] : List Int) : Multiset Int) - {1} + {5}) :=
  ⟨⟨by decide, by decide, by decide, by decide⟩,
    C10_insert_replaces_worst_leaf ([1, 3, 2] : List Int) [3, 1, 2] 0 3 5 1 (by decide)
      (by decide) (by decide) (by decide) ⟨2, by decide, by decide, by decide⟩
      (by
        intro p h1 h2
        have h1' : 2 ≤ p := h1
        have h2' : p ≤ 3 := h2
        interval_cases p <;> decide)
      (by decide) ⟨2, by decide, by decide, by decide⟩
      (by
        intro p h1 h2
        have h1' : 2 ≤ p := h1
        have h2' : p ≤ 3 := h2
        interval_cases p <;> decide)
      (by decide)⟩

/-! ## Batch operations -/

theorem npushpop_max_loop_eq_dual (n : Nat) (vals x : List α) :
    npushpop_max_loop n vals x = npushpop_min_loop (α := αᵒᵈ) n vals x := by
  induction vals generalizing x with
  | nil => rfl
  | cons v vals ih =>
    simp only [npushpop_max_loop, npushpop_min_loop, ih, dnheap_max_eq_dual]
    rfl

theorem C_npushpop_maxheap_eq_dual (heap values : List α) :
    C_npushpop_maxheap heap values = C_npushpop_minheap (α := αᵒᵈ) heap values := by
  simp only [C_npushpop_maxheap, C_npushpop_minheap, npushpop_max_loop_eq_dual]

theorem npoppush_max_loop_eq_dual (n : Nat) (vals x : List α) :
    npoppush_max_loop n vals x = npoppush_min_loop (α := αᵒᵈ) n vals x := by
  induction vals generalizing x with
  | nil => rfl
  | cons v vals ih =>
    simp only [npoppush_max_loop, npoppush_min_loop, ih, dnheap_max_eq_dual]

theorem C_npoppush_maxheap_eq_dual (heap values : List α) :
    C_npoppush_maxheap heap values = C_npoppush_minheap (α := αᵒᵈ) heap values := by
  simp only [C_npoppush_maxheap, C_npoppush_minheap, npoppush_max_loop_eq_dual]

theorem fold_pushpop_max_eq_dual (heap values : List α) :
    fold_pushpop_max heap values = fold_pushpop_min (α := αᵒᵈ) heap values := by
  simp only [fold_pushpop_max, fold_pushpop_min, C_pushpop_maxheap_eq_dual]
  rfl

theorem fold_poppush_max_eq_dual (heap values : List α) :
    fold_poppush_max heap values = fold_poppush_min (α := αᵒᵈ) heap values := by
  simp only [fold_poppush_max, fold_poppush_min, C_poppush_maxheap_eq_dual]
  rfl

/-- The heap component of one pushpop on an array of `n >= 1` cells is the body
of the batch loop. -/
theorem pushpop_min_snd (x : List α) (v : α) (n : Nat) (hn : 1 ≤ n) (hx : x.length = n) :
    (C_pushpop_minheap x v).2 = if v > at1 x 1 then dnheap_min (put1 x 1 v) 1 n else x := by
  unfold C_pushpop_minheap
  simp only
  rw [if_neg (by omega), hx]
  by_cases hv : v ≤ at1 x 1
  · rw [if_pos hv, if_neg (not_lt.mpr hv)]
  · rw [if_neg hv, if_pos (not_le.mp hv)]

theorem poppush_min_snd (x : List α) (v : α) (n : Nat) (hn : 1 ≤ n) (hx : x.length = n) :
    (C_poppush_minheap x v).2 = dnheap_min (put1 x 1 v) 1 n := by
  unfold C_poppush_minheap
  simp only
  rw [if_neg (by omega), hx]

theorem length_pushpop_min_snd (x : List α) (v : α) :
    (C_pushpop_minheap x v).2.length = x.length := by
  unfold C_pushpop_minheap
  simp only
  split
  · rfl
  · split
    · rfl
    · simp only [length_dnheap_min, length_put1]

theorem length_poppush_min_snd (x : List α) (v : α) :
    (C_poppush_minheap x v).2.length = x.length := by
  unfold C_poppush_minheap
  simp only
  split
  · rfl
  · simp only [length_dnheap_min, length_put1]

theorem npushpop_min_loop_eq_fold (n : Nat) (vals x : List α) (hn : 1 ≤ n)
    (hx : x.length = n) :
    npushpop_min_loop n vals x = vals.foldl (fun h v => (C_pushpop_minheap h v).2) x := by
  induction vals generalizing x with
  | nil => rfl
  | cons v vals ih =>
    simp only [npushpop_min_loop, List.foldl_cons]
    rw [← ih _ (by rw [length_pushpop_min_snd]; exact hx), pushpop_min_snd x v n hn hx]
    split <;> rfl

theorem npoppush_min_loop_eq_fold (n : Nat) (vals x : List α) (hn : 1 ≤ n)
    (hx : x.length = n) :
    npoppush_min_loop n vals x = vals.foldl (fun h v => (C_poppush_minheap h v).2) x := by
  induction vals generalizing x with
  | nil => rfl
  | cons v vals ih =>
    simp only [npoppush_min_loop, List.foldl_cons]
    rw [← ih _ (by rw [length_poppush_min_snd]; exact hx), poppush_min_snd x v n hn hx]

theorem fold_pushpop_min_nil (vals : List α) : fold_pushpop_min [] vals = [] := by
  unfold fold_pushpop_min
  induction vals with
  | nil => rfl
  | cons v vals ih => simpa [List.foldl_cons, C_pushpop_minheap] using ih

theorem fold_poppush_min_nil (vals : List α) : fold_poppush_min [] vals = [] := by
  unfold fold_poppush_min
  induction vals with
  | nil => rfl
  | cons v vals ih => simpa [List.foldl_cons, C_poppush_minheap] using ih

theorem C_npushpop_minheap_eq_fold (heap values : List α) :
    C_npushpop_minheap heap values = fold_pushpop_min heap values := by
  unfold C_npushpop_minheap
  simp only
  split
  · rename_i h0
    have : heap = [] := List.length_eq_zero.mp h0
    subst this
    exact (fold_pushpop_min_nil values).symm
  · exact npushpop_min_loop_eq_fold _ _ _ (by omega) rfl

theorem C_npoppush_minheap_eq_fold (heap values : List α) :
    C_npoppush_minheap heap values = fold_poppush_min heap values := by
  unfold C_npoppush_minheap
  simp only
  split
  · rename_i h0
    have : heap = [] := List.length_eq_zero.mp h0
    subst this
    exact (fold_poppush_min_nil values).symm
  · exact npoppush_min_loop_eq_fold _ _ _ (by omega) rfl

/-! ## Claims on counts, the empty heap and the batch operations -/

theorem pop_count_clamp (n : Nat) (k : Int) (hk : k > (n : Int)) :
    pop_count n k = pop_count n (n : Int) := by
  unfold pop_count
  by_cases hn : n = 0
  · simp [hn]
  · have h1 : ¬ (n = 0 ∨ k ≤ 0) := by omega
    have h2 : ¬ (n = 0 ∨ (n : Int) ≤ 0) := by omega
    rw [if_neg h1, if_neg h2, if_pos hk, if_neg (lt_irrefl _)]
    simp

theorem pop_count_neg (n : Nat) (k : Int) (hk : k ≤ 0) : pop_count n k = none := by
  unfold pop_count
  rw [if_pos (Or.inr hk)]

theorem C_pop_minheap_clamp (h : List α) (k : Int) (hk : k > (h.length : Int)) :
    C_pop_minheap h k = C_pop_minheap h (h.length : Int) := by
  unfold C_pop_minheap
  simp only [pop_count_clamp _ _ hk]

theorem C_pop_minheap_nonpos (h : List α) (k : Int) (hk : k ≤ 0) :
    C_pop_minheap h k = none := by
  unfold C_pop_minheap
  simp only [pop_count_neg _ _ hk]

/-- C11: pop never fails on its count argument: for every non-empty array `h`
of length `n` and every `k > n`, pop with `k` returns exactly the result of pop
with `n`; and for every `k < 0`, pop with `k` returns exactly the result of pop
with `0`, which is the explicit empty result (`R_NilValue`, here `none`: no
value extracted), not an error.  Both for the Min and the Max variant. -/
theorem C11_pop_count_clamped (h : List α) (k : Int) (hne : h ≠ []) :
    ((k > (h.length : Int) → C_pop_minheap h k = C_pop_minheap h (h.length : Int)) ∧
      (k < 0 → C_pop_minheap h k = C_pop_minheap h 0 ∧ C_pop_minheap h 0 = none)) ∧
    ((k > (h.length : Int) → C_pop_maxheap h k = C_pop_maxheap h (h.length : Int)) ∧
      (k < 0 → C_pop_maxheap h k = C_pop_maxheap h 0 ∧ C_pop_maxheap h 0 = none)) := by
  have key : ∀ (β : Type) [LinearOrder β] [Inhabited β] (h : List β),
      (k > (h.length : Int) → C_pop_minheap h k = C_pop_minheap h (h.length : Int)) ∧
      (k < 0 → C_pop_minheap h k = C_pop_minheap h 0 ∧ C_pop_minheap h 0 = none) := by
    intro β _ _ h
    refine ⟨C_pop_minheap_clamp h k, fun hk => ?_⟩
    rw [C_pop_minheap_nonpos h k (le_of_lt hk), C_pop_minheap_nonpos h 0 (le_refl _)]
    exact ⟨rfl, rfl⟩
  refine ⟨key α h, ?_⟩
  simp only [C_pop_maxheap_eq_dual]
  exact key αᵒᵈ h

/-- Instance of C11 at the array `[2, 1, 3]` with the count `7`, above the
length. -/
theorem C11_pop_count_clamped_witness :
    (([2, 1, 3] : List Int) ≠ [] ∧ (7 : Int) > (([2, 1, 3] : List Int).length : Int)) ∧
    C_pop_minheap ([2, 1, 3] : List Int) 7 =
      C_pop_minheap ([2, 1, 3] : List Int) (([2, 1, 3] : List Int).length : Int) :=
  ⟨⟨by decide, by decide⟩,
    (C11_pop_count_clamped ([2, 1, 3] : List Int) 7 (by decide)).1.1 (by decide)⟩

/-- C12: on the empty heap, for every value `v` and every count `k`: pushpop
and poppush both return `(v, [])`, pop returns the empty result (`R_NilValue`,
here `none`: no extracted value and no residual element), and bounded insert
returns `[]`; for the Min and for the Max variants. -/
theorem C12_empty_heap (v : α) (k : Int) :
    (C_pushpop_minheap [] v = (v, []) ∧ C_poppush_minheap [] v = (v, []) ∧
      C_pop_minheap ([] : List α) k = none ∧ C_insert_minheap [] v = []) ∧
    (C_pushpop_maxheap [] v = (v, []) ∧ C_poppush_maxheap [] v = (v, []) ∧
      C_pop_maxheap ([] : List α) k = none ∧ C_insert_maxheap [] v = []) := by
  refine ⟨⟨rfl, rfl, ?_, rfl⟩, ⟨rfl, rfl, ?_, rfl⟩⟩
  · simp [C_pop_minheap, pop_count]
  · simp [C_pop_maxheap, pop_count]

/-- C13: for every array `h` (the empty one included) and every sequence `vs`,
batch pushpop equals the left fold of the single-value pushpop over `vs` that
keeps only the heap component of each step, and batch poppush equals the same
left fold of the single-value poppush; for the Min and the Max variants. -/
theorem C13_batch_is_fold (h vs : List α) :
    (C_npushpop_minheap h vs = fold_pushpop_min h vs ∧
      C_npoppush_minheap h vs = fold_poppush_min h vs) ∧
    (C_npushpop_maxheap h vs = fold_pushpop_max h vs ∧
      C_npoppush_maxheap h vs = fold_poppush_max h vs) := by
  refine ⟨⟨C_npushpop_minheap_eq_fold h vs, C_npoppush_minheap_eq_fold h vs⟩, ?_, ?_⟩
  · rw [C_npushpop_maxheap_eq_dual, fold_pushpop_max_eq_dual]
    exact C_npushpop_minheap_eq_fold (α := αᵒᵈ) h vs
  · rw [C_npoppush_maxheap_eq_dual, fold_poppush_max_eq_dual]
    exact C_npoppush_minheap_eq_fold (α := αᵒᵈ) h vs

/-! ## Pushpop against push followed by pop -/

/-- On a valid min-heap the value extracted by pushpop is a minimum of the heap
together with the candidate, and the returned heap holds the rest. -/
theorem pushpop_min_extracts_min (h : List α) (v : α) (hh : IsMinHeap h) :
    (∀ a ∈ h ++ [v], (C_pushpop_minheap h v).1 ≤ a) ∧
    (C_pushpop_minheap h v).1 ∈ h ++ [v] ∧
    (((C_pushpop_minheap h v).2 : List α) : Multiset α) + {(C_pushpop_minheap h v).1} =
      (h : Multiset α) + {v} := by
  by_cases hne : h = []
  · subst hne
    simp [C_pushpop_minheap]
  · have hn : 1 ≤ h.length := List.length_pos.mpr hne
    have hroot := IsMinHeap_root_le h hh
    have hmem := at1_one_mem h hn
    obtain ⟨h1, h2⟩ := pushpop_min_valid h v hh hne
    by_cases hv : v ≤ at1 h 1
    · rw [h1 hv]
      refine ⟨?_, by simp, rfl⟩
      intro a ha
      rcases List.mem_append.mp ha with ha | ha
      · exact le_trans hv (hroot a ha)
      · simp at ha; rw [ha]
    · obtain ⟨h', e1, -, -, e4, -⟩ := h2 (not_le.mp hv)
      rw [e1]
      refine ⟨?_, by simp [hmem], e4⟩
      intro a ha
      rcases List.mem_append.mp ha with ha | ha
      · exact hroot a ha
      · simp at ha; rw [ha]; exact le_of_lt (not_le.mp hv)

/-- Pop of one element after a push of `v` on a valid min-heap: the extracted
value is a minimum of the heap together with `v`, the residual holds the rest. -/
theorem push_pop_one_min (h : List α) (v : α) (hh : IsMinHeap h) :
    ∃ e R, C_pop_minheap (C_push_minheap h [v]) 1 = some ([e], R) ∧
      (∀ a ∈ h ++ [v], e ≤ a) ∧ e ∈ h ++ [v] ∧
      (R : Multiset α) + {e} = (h : Multiset α) + {v} := by
  have hperm := C_push_minheap_perm h [v] hh
  have hheap := C_push_minheap_isMinHeap h [v] hh
  have hlen : (C_push_minheap h [v]).length = h.length + 1 := by
    rw [hperm.length_eq]; simp
  obtain ⟨E, W, hpop, hE, hW, hpm, hhead, -⟩ :=
    C_pop_minheap_spec (C_push_minheap h [v]) 1 (by omega) (le_refl _)
  have hE1 : E.length = 1 := by rw [hE, hlen]; simp
  have hEeq : E = [at1 (C_push_minheap h [v]) 1] := by
    match E, hE1, hhead with
    | [a], _, hd => simp at hd; rw [hd]
  refine ⟨at1 (C_push_minheap h [v]) 1, W, by rw [hpop, hEeq], ?_, ?_, ?_⟩
  · intro a ha
    exact IsMinHeap_root_le _ hheap a (hperm.symm.subset ha)
  · exact hperm.subset (at1_one_mem _ (by omega))
  · have h3 : (W ++ [at1 (C_push_minheap h [v]) 1]).Perm (h ++ [v]) := by
      rw [hEeq] at hpm
      exact (List.perm_append_comm.trans hpm).trans hperm
    have h4 := Multiset.coe_eq_coe.mpr h3
    rw [← Multiset.coe_add, ← Multiset.coe_add] at h4
    exact h4

theorem pushpop_eq_push_pop_min (h : List α) (v : α) (hh : IsMinHeap h) :
    ∃ e R, C_pop_minheap (C_push_minheap h [v]) 1 = some ([e], R) ∧
      (C_pushpop_minheap h v).1 = e ∧ (C_pushpop_minheap h v).2.length = R.length ∧
      (((C_pushpop_minheap h v).2 : List α) : Multiset α) = (R : Multiset α) := by
  obtain ⟨e, R, hpop, hmin, hmem, hadd⟩ := push_pop_one_min h v hh
  obtain ⟨pmin, pmem, padd⟩ := pushpop_min_extracts_min h v hh
  have he : (C_pushpop_minheap h v).1 = e := le_antisymm (pmin e hmem) (hmin _ pmem)
  have hms : (((C_pushpop_minheap h v).2 : List α) : Multiset α) = (R : Multiset α) := by
    rw [he, ← hadd] at padd
    exact add_right_cancel padd
  refine ⟨e, R, hpop, he, ?_, hms⟩
  have := congrArg Multiset.card hms
  simpa using this

/-- C14: pushpop is a combined push followed by pop of one element: for every
valid Min heap `h` (resp. Max heap `g`) and every value `v`, the value extracted
by pushpop equals the single value extracted by `pop(push(h, [v]), 1)`, and the
heap returned by pushpop has the same length and the same multiset of elements
as the residual returned by `pop(push(h, [v]), 1)`. -/
theorem C14_pushpop_is_push_then_pop (h g : List α) (v : α) (hh : IsMinHeap h)
    (hg : IsMaxHeap g) :
    (∃ e R, C_pop_minheap (C_push_minheap h [v]) 1 = some ([e], R) ∧
      (C_pushpop_minheap h v).1 = e ∧ (C_pushpop_minheap h v).2.length = R.length ∧
      (((C_pushpop_minheap h v).2 : List α) : Multiset α) = (R : Multiset α)) ∧
    (∃ e R, C_pop_maxheap (C_push_maxheap g [v]) 1 = some ([e], R) ∧
      (C_pushpop_maxheap g v).1 = e ∧ (C_pushpop_maxheap g v).2.length = R.length ∧
      (((C_pushpop_maxheap g v).2 : List α) : Multiset α) = (R : Multiset α)) := by
  refine ⟨pushpop_eq_push_pop_min h v hh, ?_⟩
  rw [C_push_maxheap_eq_dual, C_pop_maxheap_eq_dual, C_pushpop_maxheap_eq_dual]
  exact pushpop_eq_push_pop_min (α := αᵒᵈ) g v hg

/-- Instance of C14 at the Min heap `[1, 3, 2]` and the Max heap `[3, 1, 2]`
with the value `2`. -/
theorem C14_pushpop_is_push_then_pop_witness :
    (IsMinHeap ([1, 3, 2] : List Int) ∧ IsMaxHeap ([3, 1, 2] : List Int)) ∧
    (∃ e R, C_pop_minheap (C_push_minheap ([1, 3, 2] : List Int) [2]) 1 = some ([e], R) ∧
      (C_pushpop_minheap ([1, 3, 2] : List Int) 2).1 = e ∧
      (C_pushpop_minheap ([1, 3, 2] : List Int) 2).2.length = R.length ∧
      (((C_pushpop_minheap ([1, 3, 2] : List Int) 2).2 : List Int) : Multiset Int) =
        (R : Multiset Int)) :=
  ⟨⟨by decide, by decide⟩,
    (C14_pushpop_is_push_then_pop ([1, 3, 2] : List Int) [3, 1, 2] 2 (by decide)
      (by decide)).1⟩

/-! ## The worst leaf of a valid heap -/

theorem min_leaf_scan_eq_dual (x : List α) :
    min_leaf_scan x = max_leaf_scan (α := αᵒᵈ) x := by
  simp only [min_leaf_scan, max_leaf_scan, min_leaf_loop_eq_dual]

/-- In a min-heap every cell is below some leaf. -/
theorem MinHeap_le_leaf (h : List α) (hh : IsMinHeap h) (d q : Nat) (hd : h.length - q ≤ d)
    (hq1 : 1 ≤ q) (hq2 : q ≤ h.length) :
    ∃ l, h.length / 2 + 1 ≤ l ∧ l ≤ h.length ∧ at1 h q ≤ at1 h l := by
  induction d generalizing q with
  | zero => exact ⟨q, by omega, hq2, le_refl _⟩
  | succ d ih =>
    by_cases hleaf : h.length / 2 + 1 ≤ q
    · exact ⟨q, hleaf, hq2, le_refl _⟩
    · obtain ⟨l, hl1, hl2, hl3⟩ := ih (2 * q) (by omega) (by omega) (by omega)
      have hc := hh (2 * q) (by omega) (by omega)
      rw [show 2 * q / 2 = q by omega] at hc
      exact ⟨l, hl1, hl2, le_trans hc hl3⟩

/-- On a valid non-empty min-heap the leaf found by the scan of bounded insert
holds a largest value of the whole heap. -/
theorem max_leaf_scan_global (h : List α) (hh : IsMinHeap h) (hne : h ≠ []) :
    ∀ a ∈ h, a ≤ (max_leaf_scan h).1 := by
  have hn : 1 ≤ h.length := List.length_pos.mpr hne
  obtain ⟨-, -, -, h4⟩ := max_leaf_scan_spec h hn
  intro a ha
  obtain ⟨q, hq1, hq2, rfl⟩ := (mem_iff_at1 h a).mp ha
  obtain ⟨l, hl1, hl2, hl3⟩ := MinHeap_le_leaf h hh (h.length - q) q (le_refl _) hq1 hq2
  exact le_trans hl3 (h4 l hl1 hl2)

theorem insert_min_overwrites (h : List α) (v : α) (hh : IsMinHeap h) (hne : h ≠ [])
    (hv : v < (max_leaf_scan h).1) :
    C_insert_minheap h v = upheap_min (put1 h (max_leaf_scan h).2 v) (max_leaf_scan h).2 ∧
    h.length / 2 + 1 ≤ (max_leaf_scan h).2 ∧ (max_leaf_scan h).2 ≤ h.length ∧
    at1 h (max_leaf_scan h).2 = (max_leaf_scan h).1 ∧
    ∀ a ∈ h, a ≤ (max_leaf_scan h).1 := by
  have hn : 1 ≤ h.length := List.length_pos.mpr hne
  obtain ⟨h1, h2, h3, -⟩ := max_leaf_scan_spec h hn
  refine ⟨?_, h1, h2, h3, max_leaf_scan_global h hh hne⟩
  unfold C_insert_minheap
  simp only
  rw [if_neg (by omega), if_pos hv]

/-- C15, as stated, fails: there is no valid Min heap `h` with a candidate `v`
strictly smaller than the largest leaf value for which the value of the leaf
that bounded insert overwrites (the largest leaf value found by its scan) is
strictly smaller than some value stored in `h`; likewise there is no such valid
Max heap. -/
theorem C15_counterexample :
    (¬ ∃ (h : List Int) (v : Int), IsMinHeap h ∧ h ≠ [] ∧ v < (max_leaf_scan h).1 ∧
      ∃ a ∈ h, (max_leaf_scan h).1 < a) ∧
    (¬ ∃ (g : List Int) (v : Int), IsMaxHeap g ∧ g ≠ [] ∧ v > (min_leaf_scan g).1 ∧
      ∃ a ∈ g, (min_leaf_scan g).1 > a) := by
  constructor
  · rintro ⟨h, v, hh, hne, -, a, ha, hlt⟩
    exact absurd (max_leaf_scan_global h hh hne a ha) (not_le.mpr hlt)
  · rintro ⟨g, v, hg, hne, -, a, ha, hlt⟩
    rw [min_leaf_scan_eq_dual] at hlt
    exact absurd (max_leaf_scan_global (α := Intᵒᵈ) g hg hne a ha) (not_le.mpr hlt)

/-- C15, amended: on a valid heap the worst leaf is a globally worst element.
For every valid non-empty Min heap `h` and every candidate `v` strictly smaller
than the largest leaf value, bounded insert overwrites a leaf position that
holds the largest leaf value, and every value stored in `h` is `<=` that value;
symmetrically for a valid non-empty Max heap `g` with a candidate `t` strictly
larger than the smallest leaf value.  Only on an array that is not a valid heap
can the overwritten leaf be strictly better than the worst element: on
`[9, 1, 2]` with the candidate `0` the leaf `2` is overwritten while `9` stays. -/
theorem C15_worst_leaf_is_global_worst (h g : List α) (v t : α) (hh : IsMinHeap h)
    (hg : IsMaxHeap g) (hhne : h ≠ []) (hgne : g ≠ []) (hv : v < (max_leaf_scan h).1)
    (ht : t > (min_leaf_scan g).1) :
    (C_insert_minheap h v = upheap_min (put1 h (max_leaf_scan h).2 v) (max_leaf_scan h).2 ∧
      h.length / 2 + 1 ≤ (max_leaf_scan h).2 ∧ (max_leaf_scan h).2 ≤ h.length ∧
      at1 h (max_leaf_scan h).2 = (max_leaf_scan h).1 ∧
      ∀ a ∈ h, a ≤ (max_leaf_scan h).1) ∧
    (C_insert_maxheap g t = upheap_max (put1 g (min_leaf_scan g).2 t) (min_leaf_scan g).2 ∧
      g.length / 2 + 1 ≤ (min_leaf_scan g).2 ∧ (min_leaf_scan g).2 ≤ g.length ∧
      at1 g (min_leaf_scan g).2 = (min_leaf_scan g).1 ∧
      ∀ a ∈ g, a ≥ (min_leaf_scan g).1) ∧
    (¬ IsMinHeap ([9, 1, 2] : List Int) ∧ (0 : Int) < (max_leaf_scan ([9, 1, 2] : List Int)).1 ∧
      C_insert_minheap ([9, 1, 2] : List Int) 0 = [0, 1, 9] ∧
      (max_leaf_scan ([9, 1, 2] : List Int)).1 < 9) := by
  refine ⟨insert_min_overwrites h v hh hhne hv, ?_, by decide, by decide, by decide, by decide⟩
  rw [C_insert_maxheap_eq_dual, min_leaf_scan_eq_dual] at *
  simp only [upheap_max_eq_dual]
  exact insert_min_overwrites (α := αᵒᵈ) g t hg hgne ht

/-- Instance of the amended C15 at the Min heap `[1, 3, 2]` with the candidate
`0` and the Max heap `[3, 1, 2]` with the candidate `5`. -/
theorem C15_worst_leaf_is_global_worst_witness :
    (IsMinHeap ([1, 3, 2] : List Int) ∧ IsMaxHeap ([3, 1, 2] : List Int) ∧
      (0 : Int) < (max_leaf_scan ([1, 3, 2] : List Int)).1 ∧
      (5 : Int) > (min_leaf_scan ([3, 1, 2] : List Int)).1) ∧
    (C_insert_minheap ([1, 3, 2] : List Int) 0 =
        upheap_min (put1 ([1, 3, 2] : List Int) (max_leaf_scan ([1, 3, 2] : List Int)).2 0)
          (max_leaf_scan ([1, 3, 2] : List Int)).2 ∧
      ([1, 3, 2] : List Int).length / 2 + 1 ≤ (max_leaf_scan ([1, 3, 2] : List Int)).2 ∧
      (max_leaf_scan ([1, 3, 2] : List Int)).2 ≤ ([1, 3, 2] : List Int).length ∧
      at1 ([1, 3, 2] : List Int) (max_leaf_scan ([1, 3, 2] : List Int)).2 =
        (max_leaf_scan ([1, 3, 2] : List Int)).1 ∧
      ∀ a ∈ ([1, 3, 2] : List Int), a ≤ (max_leaf_scan ([1, 3, 2] : List Int)).1) :=
  ⟨⟨by decide, by decide, by decide, by decide⟩,
    (C15_worst_leaf_is_global_worst ([1, 3, 2] : List Int) [3, 1, 2] 0 5 (by decide)
      (by decide) (by decide) (by decide) (by decide) (by decide)).1⟩

/-! ## Subtrees and the frame of sift-down -/

theorem inSubtree_self (pos : Nat) : inSubtree pos pos := ⟨0, Nat.zero_le _, by simp⟩

theorem inSubtree_le (pos p : Nat) (h : inSubtree pos p) : pos ≤ p := by
  obtain ⟨k, -, rfl⟩ := h
  exact Nat.div_le_self _ _

theorem inSubtree_pow_le (pos p k : Nat) (hpos : 1 ≤ pos) (h : p / 2 ^ k = pos) :
    2 ^ k ≤ p := by
  by_contra hlt
  rw [Nat.div_eq_of_lt (by omega)] at h
  omega

theorem inSubtree_children (pos q : Nat) (hpos : 1 ≤ pos) (h : inSubtree pos q) :
    inSubtree pos (2 * q) ∧ inSubtree pos (2 * q + 1) := by
  obtain ⟨k, hk, hq⟩ := h
  have hq1 : 1 ≤ q := by
    have := inSubtree_le pos q ⟨k, hk, hq⟩
    omega
  constructor
  · refine ⟨k + 1, by omega, ?_⟩
    rw [pow_succ, Nat.mul_comm (2 ^ k) 2, ← Nat.div_div_eq_div_mul,
      Nat.mul_div_cancel_left _ (by omega)]
    exact hq
  · refine ⟨k + 1, by omega, ?_⟩
    rw [pow_succ, Nat.mul_comm (2 ^ k) 2, ← Nat.div_div_eq_div_mul,
      show (2 * q + 1) / 2 = q by omega]
    exact hq

theorem inSubtree_of_child (pos s q : Nat) (hpos : 1 ≤ pos) (hs : s / 2 = pos)
    (h : inSubtree s q) : inSubtree pos q := by
  obtain ⟨k, hk, hq⟩ := h
  have hs1 : 1 ≤ s := by omega
  have hpow := inSubtree_pow_le s q k hs1 hq
  have hlt : k < 2 ^ k := Nat.lt_two_pow k
  refine ⟨k + 1, by omega, ?_⟩
  rw [pow_succ, ← Nat.div_div_eq_div_mul, hq, hs]

theorem inSubtree_parent (pos p : Nat) (hpos : 1 ≤ pos) (h : inSubtree pos p)
    (hne : p ≠ pos) : inSubtree pos (p / 2) := by
  obtain ⟨k, hk, hq⟩ := h
  cases k with
  | zero => simp at hq; exact absurd hq hne
  | succ k =>
    have hpow := inSubtree_pow_le pos p (k + 1) hpos hq
    have hlt : k < 2 ^ k := Nat.lt_two_pow k
    rw [pow_succ] at hpow
    refine ⟨k, by omega, ?_⟩
    rw [pow_succ, Nat.mul_comm (2 ^ k) 2, ← Nat.div_div_eq_div_mul] at hq
    exact hq

/-- Sift-down at `pos` with the size `size` changes no cell outside the subtree
of `pos` and no cell beyond `size`. -/
theorem dnheap_min_loop_frame (fuel : Nat) (x : List α) (pos size : Nat) (hpos : 1 ≤ pos)
    (hsize : size ≤ x.length) :
    ∀ q, 1 ≤ q → (¬ inSubtree pos q ∨ size < q) →
      at1 (dnheap_min_loop fuel x pos size) q = at1 x q := by
  induction fuel generalizing x pos with
  | zero => intro q _ _; rfl
  | succ f ih =>
    intro q hq1 hq
    simp only [dnheap_min_loop]
    split
    · rename_i hne
      obtain ⟨h1, h2, h3, -, -⟩ := dn_min_choice_ne x pos size hpos hne
      generalize dn_min_choice x pos size = s at h1 h2 h3
      have hs_sub : inSubtree pos s := by
        rcases child_cases s pos h1 with e | e
        · rw [e]; exact (inSubtree_children pos pos hpos (inSubtree_self pos)).1
        · rw [e]; exact (inSubtree_children pos pos hpos (inSubtree_self pos)).2
      have hq' : ¬ inSubtree s q ∨ size < q := by
        rcases hq with hq | hq
        · exact Or.inl (fun hsq => hq (inSubtree_of_child pos s q hpos h1 hsq))
        · exact Or.inr hq
      rw [ih (swap1 x pos s) s (by omega) (by rw [length_swap1]; exact hsize) q hq1 hq',
        at1_swap1 x pos s q hpos (by omega) (by omega) (by omega) hq1]
      have e1 : ¬ (q = s) := by
        rintro rfl
        rcases hq with hq | hq
        · exact hq hs_sub
        · omega
      have e2 : ¬ (q = pos) := by
        rintro rfl
        rcases hq with hq | hq
        · exact hq (inSubtree_self _)
        · omega
      rw [if_neg e1, if_neg e2]
    · rfl

/-- Sift-down at `pos` of an array whose two subtrees below `pos` are in order
within `[1, size]`. -/
theorem dnheap_min_subtree (x : List α) (pos size : Nat) (h1 : 1 ≤ pos) (h2 : pos ≤ size)
    (h3 : size ≤ x.length)
    (hbelow : ∀ p, p ≤ size → inSubtree pos p → p ≠ pos → p / 2 ≠ pos →
      at1 x (p / 2) ≤ at1 x p) :
    (dnheap_min x pos size).Perm x ∧
    (∀ p, p ≤ size → inSubtree pos p → p ≠ pos →
      at1 (dnheap_min x pos size) (p / 2) ≤ at1 (dnheap_min x pos size) p) ∧
    (∀ p, 1 ≤ p → ¬ inSubtree pos p → at1 (dnheap_min x pos size) p = at1 x p) ∧
    (∀ p, size < p → at1 (dnheap_min x pos size) p = at1 x p) := by
  refine ⟨dnheap_min_perm x pos size h1 h3, ?_, ?_, ?_⟩
  · intro p hp hsub hne
    have hge := inSubtree_le pos p hsub
    apply dnheap_min_loop_inv (inSubtree pos) (fun q hq => inSubtree_children pos q h1 hq)
      size x pos size h1 h3 (by omega) (inSubtree_self pos) ?_ ?_ p (by omega) hp
      (inSubtree_parent pos p h1 hsub hne)
    · intro c hc1 hc2 hPc hcp
      have hc_sub : inSubtree pos c := by
        rcases child_cases c (c / 2) rfl with e | e
        · rw [e]; exact (inSubtree_children pos (c / 2) h1 hPc).1
        · rw [e]; exact (inSubtree_children pos (c / 2) h1 hPc).2
      have := inSubtree_le pos (c / 2) hPc
      exact hbelow c hc2 hc_sub (by omega) hcp
    · intro c _ _ hp1 hPp
      have := inSubtree_le pos (pos / 2) hPp
      omega
  · intro p hp hsub
    exact dnheap_min_loop_frame size x pos size h1 h3 p hp (Or.inl hsub)
  · intro p hp
    exact dnheap_min_loop_frame size x pos size h1 h3 p (by omega) (Or.inr hp)

/-! ## Claims on the sift primitives -/

/-- C16: for every array `x` and every `1 <= pos <= size <= length(x)` such
that the array is a valid Min heap below `pos` (`value[p/2] <= value[p]` for
every position `p <= size` that is a proper descendant of `pos` and whose parent
is not `pos` itself), `dnheap_min x pos size` is a permutation of `x` in which
`value[p/2] <= value[p]` holds for every position `p <= size` that is a proper
descendant of `pos`, and in which every position outside the subtree rooted at
`pos`, and every position `> size`, holds the same value as before;
symmetrically for `dnheap_max` on an array `y` with `>=`. -/
theorem C16_sift_down_contract (x y : List α) (pos size : Nat) (h1 : 1 ≤ pos)
    (h2 : pos ≤ size) (hx : size ≤ x.length) (hy : size ≤ y.length)
    (hxbelow : ∀ p, p ≤ size → inSubtree pos p → p ≠ pos → p / 2 ≠ pos →
      at1 x (p / 2) ≤ at1 x p)
    (hybelow : ∀ p, p ≤ size → inSubtree pos p → p ≠ pos → p / 2 ≠ pos →
      at1 y (p / 2) ≥ at1 y p) :
    ((dnheap_min x pos size).Perm x ∧
      (∀ p, p ≤ size → inSubtree pos p → p ≠ pos →
        at1 (dnheap_min x pos size) (p / 2) ≤ at1 (dnheap_min x pos size) p) ∧
      (∀ p, 1 ≤ p → ¬ inSubtree pos p → at1 (dnheap_min x pos size) p = at1 x p) ∧
      (∀ p, size < p → at1 (dnheap_min x pos size) p = at1 x p)) ∧
    ((dnheap_max y pos size).Perm y ∧
      (∀ p, p ≤ size → inSubtree pos p → p ≠ pos →
        at1 (dnheap_max y pos size) (p / 2) ≥ at1 (dnheap_max y pos size) p) ∧
      (∀ p, 1 ≤ p → ¬ inSubtree pos p → at1 (dnheap_max y pos size) p = at1 y p) ∧
      (∀ p, size < p → at1 (dnheap_max y pos size) p = at1 y p)) := by
  refine ⟨dnheap_min_subtree x pos size h1 h2 hx hxbelow, ?_⟩
  rw [dnheap_max_eq_dual]
  exact dnheap_min_subtree (α := αᵒᵈ) y pos size h1 h2 hy hybelow

/-- Instance of C16 at the position `1` and the size `6` of the seven-cell
arrays `[9, 1, 2, 3, 4, 5, 0]` (Min) and `[0, 9, 8, 7, 6, 5, 9]` (Max), whose
last cell lies beyond the size. -/
theorem C16_sift_down_contract_witness :
    ((1 ≤ 1 ∧ 1 ≤ 6 ∧ 6 ≤ ([9, 1, 2, 3, 4, 5, 0] : List Int).length ∧
      6 ≤ ([0, 9, 8, 7, 6, 5, 9] : List Int).length) ∧
      (∀ p, p ≤ 6 → inSubtree 1 p → p ≠ 1 → p / 2 ≠ 1 →
        at1 ([9, 1, 2, 3, 4, 5, 0] : List Int) (p / 2) ≤ at1 ([9, 1, 2, 3, 4, 5, 0] : List Int) p) ∧
      (∀ p, p ≤ 6 → inSubtree 1 p → p ≠ 1 → p / 2 ≠ 1 →
        at1 ([0, 9, 8, 7, 6, 5, 9] : List Int) (p / 2) ≥ at1 ([0, 9, 8, 7, 6, 5, 9] : List Int) p)) ∧
    ((dnheap_min ([9, 1, 2, 3, 4, 5, 0] : List Int) 1 6).Perm [9, 1, 2, 3, 4, 5, 0] ∧
      (∀ p, p ≤ 6 → inSubtree 1 p → p ≠ 1 →
        at1 (dnheap_min ([9, 1, 2, 3, 4, 5, 0] : List Int) 1 6) (p / 2) ≤
          at1 (dnheap_min ([9, 1, 2, 3, 4, 5, 0] : List Int) 1 6) p) ∧
      (∀ p, 1 ≤ p → ¬ inSubtree 1 p →
        at1 (dnheap_min ([9, 1, 2, 3, 4, 5, 0] : List Int) 1 6) p =
          at1 ([9, 1, 2, 3, 4, 5, 0] : List Int) p) ∧
      (∀ p, 6 < p →
        at1 (dnheap_min ([9, 1, 2, 3, 4, 5, 0] : List Int) 1 6) p =
          at1 ([9, 1, 2, 3, 4, 5, 0] : List Int) p)) :=
  have hx : ∀ p, p ≤ 6 → inSubtree 1 p → p ≠ 1 → p / 2 ≠ 1 →
      at1 ([9, 1, 2, 3, 4, 5, 0] : List Int) (p / 2) ≤ at1 ([9, 1, 2, 3, 4, 5, 0] : List Int) p := by
    intro p hp _ _ hpar
    interval_cases p <;> first | decide | omega
  have hy : ∀ p, p ≤ 6 → inSubtree 1 p → p ≠ 1 → p / 2 ≠ 1 →
      at1 ([0, 9, 8, 7, 6, 5, 9] : List Int) (p / 2) ≥ at1 ([0, 9, 8, 7, 6, 5, 9] : List Int) p := by
    intro p hp _ _ hpar
    interval_cases p <;> first | decide | omega
  ⟨⟨⟨by decide, by decide, by decide, by decide⟩, hx, hy⟩,
    (C16_sift_down_contract ([9, 1, 2, 3, 4, 5, 0] : List Int) [0, 9, 8, 7, 6, 5, 9] 1 6
      (by decide) (by decide) (by decide) (by decide) hx hy).1⟩

/-- C17, as stated, fails: in `[5, 1, 6, 2]` the Min heap order holds at every
position `p > 1` other than `p = 2`, yet sift-up from the position `2` returns
`[1, 5, 6, 2]`, where the position `4` holds `2` below its parent `5`; likewise
for the Max variant on `[1, 5, 0, 4]`. -/
theorem C17_counterexample :
    ((1 ≤ 2 ∧ 2 ≤ ([5, 1, 6, 2] : List Int).length) ∧
      (∀ p, 1 < p → p ≤ ([5, 1, 6, 2] : List Int).length → p ≠ 2 →
        at1 ([5, 1, 6, 2] : List Int) (p / 2) ≤ at1 ([5, 1, 6, 2] : List Int) p) ∧
      upheap_min ([5, 1, 6, 2] : List Int) 2 = [1, 5, 6, 2] ∧
      C_upheap_minheap ([5, 1, 6, 2] : List Int) 2 = [1, 5, 6, 2] ∧
      ¬ IsMinHeap (upheap_min ([5, 1, 6, 2] : List Int) 2)) ∧
    ((∀ p, 1 < p → p ≤ ([1, 5, 0, 4] : List Int).length → p ≠ 2 →
        at1 ([1, 5, 0, 4] : List Int) (p / 2) ≥ at1 ([1, 5, 0, 4] : List Int) p) ∧
      upheap_max ([1, 5, 0, 4] : List Int) 2 = [5, 1, 0, 4] ∧
      ¬ IsMaxHeap (upheap_max ([1, 5, 0, 4] : List Int) 2)) := by
  refine ⟨⟨⟨by decide, by decide⟩, ?_, by decide, by decide, by decide⟩,
    ?_, by decide, by decide⟩
  · intro p hp1 hp2 hp3
    have hp2' : p ≤ 4 := hp2
    interval_cases p <;> first | decide | omega
  · intro p hp1 hp2 hp3
    have hp2' : p ≤ 4 := hp2
    interval_cases p <;> first | decide | omega

theorem upheap_min_contract (x : List α) (pos : Nat) (h1 : 1 ≤ pos) (hx : pos ≤ x.length)
    (hinv : ∀ p, 1 < p → p ≤ x.length → p ≠ pos → at1 x (p / 2) ≤ at1 x p)
    (hch : ∀ c, c ≤ x.length → c / 2 = pos → 1 < pos → at1 x (pos / 2) ≤ at1 x c) :
    (upheap_min x pos).Perm x ∧
    ∀ p, 1 < p → p ≤ (upheap_min x pos).length →
      at1 (upheap_min x pos) (p / 2) ≤ at1 (upheap_min x pos) p := by
  refine ⟨upheap_min_perm x pos hx, ?_⟩
  rw [length_upheap_min]
  exact upheap_min_loop_inv pos x pos x.length (le_refl _) hx (le_refl _) hinv hch

/-- C17, amended: for every array `x` of length `n` and every position
`1 <= pos <= n` such that the Min heap order holds at every position `p > 1`
other than `p = pos`, and such that, when `pos > 1`, the parent of `pos` is
`<=` every child of `pos` (as it is when `pos` is a leaf, or when a valid heap
had the value at `pos` decreased), `upheap_min x pos` is a permutation of `x`
that satisfies the Min heap invariant at every position `p > 1`; symmetrically
for `upheap_max` on an array `y` with `>=`. -/
theorem C17_sift_up_contract (x y : List α) (pos : Nat) (h1 : 1 ≤ pos)
    (hx : pos ≤ x.length) (hy : pos ≤ y.length)
    (hxinv : ∀ p, 1 < p → p ≤ x.length → p ≠ pos → at1 x (p / 2) ≤ at1 x p)
    (hxch : ∀ c, c ≤ x.length → c / 2 = pos → 1 < pos → at1 x (pos / 2) ≤ at1 x c)
    (hyinv : ∀ p, 1 < p → p ≤ y.length → p ≠ pos → at1 y (p / 2) ≥ at1 y p)
    (hych : ∀ c, c ≤ y.length → c / 2 = pos → 1 < pos → at1 y (pos / 2) ≥ at1 y c) :
    ((upheap_min x pos).Perm x ∧
      ∀ p, 1 < p → p ≤ (upheap_min x pos).length →
        at1 (upheap_min x pos) (p / 2) ≤ at1 (upheap_min x pos) p) ∧
    ((upheap_max y pos).Perm y ∧
      ∀ p, 1 < p → p ≤ (upheap_max y pos).length →
        at1 (upheap_max y pos) (p / 2) ≥ at1 (upheap_max y pos) p) := by
  refine ⟨upheap_min_contract x pos h1 hx hxinv hxch, ?_⟩
  rw [upheap_max_eq_dual]
  exact upheap_min_contract (α := αᵒᵈ) y pos h1 hy hyinv hych

/-- Instance of the amended C17 at the position `2` of `[5, 1, 6, 7]` (Min) and
of `[1, 5, 0, 0]` (Max), where the child at the position `4` is not better than
the root. -/
theorem C17_sift_up_contract_witness :
    ((1 ≤ 2 ∧ 2 ≤ ([5, 1, 6, 7] : List Int).length ∧ 2 ≤ ([1, 5, 0, 0] : List Int).length) ∧
      (∀ p, 1 < p → p ≤ ([5, 1, 6, 7] : List Int).length → p ≠ 2 →
        at1 ([5, 1, 6, 7] : List Int) (p / 2) ≤ at1 ([5, 1, 6, 7] : List Int) p) ∧
      (∀ c, c ≤ ([5, 1, 6, 7] : List Int).length → c / 2 = 2 → 1 < 2 →
        at1 ([5, 1, 6, 7] : List Int) (2 / 2) ≤ at1 ([5, 1, 6, 7] : List Int) c)) ∧
    ((upheap_min ([5, 1, 6, 7] : List Int) 2).Perm [5, 1, 6, 7] ∧
      ∀ p, 1 < p → p ≤ (upheap_min ([5, 1, 6, 7] : List Int) 2).length →
        at1 (upheap_min ([5, 1, 6, 7] : List Int) 2) (p / 2) ≤
          at1 (upheap_min ([5, 1, 6, 7] : List Int) 2) p) :=
  have hxinv : ∀ p, 1 < p → p ≤ ([5, 1, 6, 7] : List Int).length → p ≠ 2 →
      at1 ([5, 1, 6, 7] : List Int) (p / 2) ≤ at1 ([5, 1, 6, 7] : List Int) p := by
    intro p hp1 hp2 hp3
    have hp2' : p ≤ 4 := hp2
    interval_cases p <;> first | decide | omega
  have hxch : ∀ c, c ≤ ([5, 1, 6, 7] : List Int).length → c / 2 = 2 → 1 < 2 →
      at1 ([5, 1, 6, 7] : List Int) (2 / 2) ≤ at1 ([5, 1, 6, 7] : List Int) c := by
    intro c hc1 hc2 _
    have hc1' : c ≤ 4 := hc1
    interval_cases c <;> first | decide | omega
  have hyinv : ∀ p, 1 < p → p ≤ ([1, 5, 0, 0] : List Int).length → p ≠ 2 →
      at1 ([1, 5, 0, 0] : List Int) (p / 2) ≥ at1 ([1, 5, 0, 0] : List Int) p := by
    intro p hp1 hp2 hp3
    have hp2' : p ≤ 4 := hp2
    interval_cases p <;> first | decide | omega
  have hych : ∀ c, c ≤ ([1, 5, 0, 0] : List Int).length → c / 2 = 2 → 1 < 2 →
      at1 ([1, 5, 0, 0] : List Int) (2 / 2) ≥ at1 ([1, 5, 0, 0] : List Int) c := by
    intro c hc1 hc2 _
    have hc1' : c ≤ 4 := hc1
    interval_cases c <;> first | decide | omega
  ⟨⟨⟨by decide, by decide, by decide⟩, hxinv, hxch⟩,
    (C17_sift_up_contract ([5, 1, 6, 7] : List Int) [1, 5, 0, 0] 2 (by decide) (by decide)
      (by decide) hxinv hxch hyinv hych).1⟩

/-! ## Positions out of range -/

theorem dn_min_choice_no_child (x : List α) (pos size : Nat) (h : size < 2 * pos) :
    dn_min_choice x pos size = pos := by
  unfold dn_min_choice
  simp only
  rw [if_neg (fun hc => by omega), if_neg (fun hc => by omega)]

theorem dnheap_min_no_child (x : List α) (pos size : Nat) (h : size < 2 * pos) :
    dnheap_min x pos size = x := by
  unfold dnheap_min
  cases size with
  | zero => rfl
  | succ s =>
    simp only [dnheap_min_loop]
    rw [dn_min_choice_no_child x pos (s + 1) h]
    simp

theorem upheap_min_root (x : List α) (pos : Nat) (h : pos ≤ 1) : upheap_min x pos = x := by
  unfold upheap_min
  cases pos with
  | zero => rfl
  | succ p =>
    simp only [upheap_min_loop]
    rw [if_neg (by omega)]

theorem C_upheap_minheap_low (x : List α) (pos : Int) (h : pos < 1) :
    C_upheap_minheap x pos = x := by
  unfold C_upheap_minheap
  simp only
  rw [if_neg (by omega)]

theorem C_dnheap_minheap_high (x : List α) (pos size : Int) (h1 : 1 ≤ pos) (h2 : size < pos) :
    C_dnheap_minheap x pos size = x := by
  unfold C_dnheap_minheap
  simp only
  rw [if_pos h1]
  exact dnheap_min_no_child x _ _ (by omega)

theorem C_upheap_maxheap_eq_dual (x : List α) (pos : Int) :
    C_upheap_maxheap x pos = C_upheap_minheap (α := αᵒᵈ) x pos := by
  simp only [C_upheap_maxheap, C_upheap_minheap, upheap_max_eq_dual]

theorem C_dnheap_maxheap_eq_dual (x : List α) (pos size : Int) :
    C_dnheap_maxheap x pos size = C_dnheap_minheap (α := αᵒᵈ) x pos size := by
  simp only [C_dnheap_maxheap, C_dnheap_minheap, dnheap_max_eq_dual]

/-- C18, as stated, fails: the exposed sift-up called on `[3, 1, 2]` with the
position `0`, outside `[1, 3]`, returns the array `[3, 1, 2]`; the exposed
sift-down called on it with the position `4` and the size `3`, outside `[1, 3]`,
returns the array `[3, 1, 2]`; likewise for the Max variants. -/
theorem C18_counterexample :
    (¬ ((1 : Int) ≤ 0 ∧ (0 : Int) ≤ (([3, 1, 2] : List Int).length : Int)) ∧
      C_upheap_minheap ([3, 1, 2] : List Int) 0 = [3, 1, 2] ∧
      C_upheap_maxheap ([3, 1, 2] : List Int) 0 = [3, 1, 2]) ∧
    (¬ ((1 : Int) ≤ 4 ∧ (4 : Int) ≤ 3) ∧
      C_dnheap_minheap ([3, 1, 2] : List Int) 4 3 = [3, 1, 2] ∧
      C_dnheap_maxheap ([3, 1, 2] : List Int) 4 3 = [3, 1, 2]) := by
  decide

/-- C18, amended: the exposed primitives test no position and signal no error.
For every array `x`, sift-up with a position `pos < 1` returns `x` unchanged,
and sift-down with a position `pos >= 1` above the size (`pos > size`) returns
`x` unchanged; for the Min and the Max variants.  (Sift-up with a position above
the length and sift-down with a position below `1` are left out: there the C
code reads outside the array.) -/
theorem C18_no_position_check (x : List α) (pos size : Int) :
    (pos < 1 → C_upheap_minheap x pos = x ∧ C_upheap_maxheap x pos = x) ∧
    (1 ≤ pos → size < pos →
      C_dnheap_minheap x pos size = x ∧ C_dnheap_maxheap x pos size = x) := by
  constructor
  · intro h
    refine ⟨C_upheap_minheap_low x pos h, ?_⟩
    rw [C_upheap_maxheap_eq_dual]
    exact C_upheap_minheap_low (α := αᵒᵈ) x pos h
  · intro h1 h2
    refine ⟨C_dnheap_minheap_high x pos size h1 h2, ?_⟩
    rw [C_dnheap_maxheap_eq_dual]
    exact C_dnheap_minheap_high (α := αᵒᵈ) x pos size h1 h2

/-- Instance of the amended C18 at `[3, 1, 2]`: sift-up at the position `-2`,
sift-down at the position `5` with the size `3`. -/
theorem C18_no_position_check_witness :
    (((-2 : Int) < 1) ∧ C_upheap_minheap ([3, 1, 2] : List Int) (-2) = [3, 1, 2] ∧
      C_upheap_maxheap ([3, 1, 2] : List Int) (-2) = [3, 1, 2]) ∧
    (((1 : Int) ≤ 5 ∧ (3 : Int) < 5) ∧ C_dnheap_minheap ([3, 1, 2] : List Int) 5 3 = [3, 1, 2] ∧
      C_dnheap_maxheap ([3, 1, 2] : List Int) 5 3 = [3, 1, 2]) :=
  ⟨⟨by decide, (C18_no_position_check ([3, 1, 2] : List Int) (-2) 3).1 (by decide)⟩,
    ⟨⟨by decide, by decide⟩,
      (C18_no_position_check ([3, 1, 2] : List Int) 5 3).2 (by decide) (by decide)⟩⟩

/-! ## Streaming top-n -/

theorem pushpop_min_snd_valid (h : List α) (v : α) (hh : IsMinHeap h) :
    IsMinHeap (C_pushpop_minheap h v).2 := by
  by_cases hne : h = []
  · subst hne
    exact hh
  · obtain ⟨h1, h2⟩ := pushpop_min_valid h v hh hne
    by_cases hv : v ≤ at1 h 1
    · rw [h1 hv]; exact hh
    · obtain ⟨h', e1, -, e3, -, -⟩ := h2 (not_le.mp hv)
      rw [e1]; exact e3

/-- A list that lies above the rest of a permutation of `L` is, up to order,
the prefix of `L` sorted in non-increasing order. -/
theorem top_prefix (T rest L : List α) (hperm : (T ++ rest).Perm L)
    (hb : ∀ a ∈ T, ∀ b ∈ rest, b ≤ a) :
    T.Perm ((L.insertionSort (· ≥ ·)).take T.length) := by
  have key : ∀ E : List α, E.Sorted (· ≥ ·) → (E ++ rest).Perm L →
      (∀ a ∈ E, ∀ b ∈ rest, b ≤ a) → E = (L.insertionSort (· ≥ ·)).take E.length :=
    fun E hs hp hb => sorted_prefix (α := αᵒᵈ) E rest L hp hs hb
  have hs : (T.insertionSort (· ≥ ·)).Sorted (· ≥ ·) := List.sorted_insertionSort _ T
  have hp : (T.insertionSort (· ≥ ·)).Perm T := List.perm_insertionSort _ T
  have h1 := key (T.insertionSort (· ≥ ·)) hs ((hp.append_right rest).trans hperm)
    (fun a ha b hb' => hb a (hp.subset ha) b hb')
  rw [List.length_insertionSort] at h1
  rw [← h1]
  exact hp.symm

/-- Invariant of the fold of pushpop: the heap stays a valid min-heap of the
same length and stays above everything that was extracted. -/
theorem fold_pushpop_min_inv (vs H rest : List α) (hH : IsMinHeap H)
    (hb : ∀ a ∈ H, ∀ b ∈ rest, b ≤ a) :
    ∃ rest', IsMinHeap (fold_pushpop_min H vs) ∧
      (fold_pushpop_min H vs).length = H.length ∧
      (fold_pushpop_min H vs ++ rest').Perm (H ++ rest ++ vs) ∧
      ∀ a ∈ fold_pushpop_min H vs, ∀ b ∈ rest', b ≤ a := by
  induction vs generalizing H rest with
  | nil => exact ⟨rest, hH, rfl, by simp [fold_pushpop_min], hb⟩
  | cons v vs ih =>
    obtain ⟨pmin, pmem, padd⟩ := pushpop_min_extracts_min H v hH
    have hvalid := pushpop_min_snd_valid H v hH
    have hlen := length_pushpop_min_snd H v
    have hfold : fold_pushpop_min H (v :: vs) = fold_pushpop_min
        (C_pushpop_minheap H v).2 vs := by
      simp [fold_pushpop_min]
    rw [hfold]
    generalize C_pushpop_minheap H v = r at pmin pmem padd hvalid hlen
    have hsub : ∀ a ∈ r.2, a ∈ H ++ [v] := by
      intro a ha
      have h1 : a ∈ ((r.2 : List α) : Multiset α) + {r.1} :=
        Multiset.mem_add.mpr (Or.inl ha)
      rw [padd] at h1
      rcases Multiset.mem_add.mp h1 with h2 | h2
      · exact List.mem_append_left _ h2
      · exact List.mem_append_right _ (by simpa using h2)
    have hb' : ∀ a ∈ r.2, ∀ b ∈ r.1 :: rest, b ≤ a := by
      intro a ha b hbm
      rcases List.mem_cons.mp hbm with rfl | hbr
      · exact pmin a (hsub a ha)
      · by_cases he : r.1 ∈ H
        · exact le_trans (hb _ he b hbr) (pmin a (hsub a ha))
        · have hev : r.1 = v := by
            rcases List.mem_append.mp pmem with h1 | h1
            · exact absurd h1 he
            · simpa using h1
          rw [hev] at padd
          have hHr : (r.2 : Multiset α) = (H : Multiset α) := add_right_cancel padd
          have haH : a ∈ H := by
            have : a ∈ ((r.2 : List α) : Multiset α) := ha
            rw [hHr] at this
            exact this
          exact hb a haH b hbr
    have hpm : (r.2 ++ (r.1 :: rest)).Perm (H ++ rest ++ [v]) := by
      have h1 : (r.2 ++ [r.1]).Perm (H ++ [v]) := by
        rw [← Multiset.coe_eq_coe, ← Multiset.coe_add, ← Multiset.coe_add]
        exact padd
      have h2 : (r.2 ++ (r.1 :: rest)).Perm ((r.2 ++ [r.1]) ++ rest) := by
        simp only [List.append_assoc, List.singleton_append]
        exact List.Perm.refl _
      have h3 : ((H ++ [v]) ++ rest).Perm (H ++ rest ++ [v]) := by
        simp only [List.append_assoc]
        exact List.Perm.append_left H List.perm_append_comm
      exact (h2.trans (h1.append_right rest)).trans h3
    obtain ⟨rest', i1, i2, i3, i4⟩ := ih r.2 (r.1 :: rest) hvalid hb'
    refine ⟨rest', i1, by rw [i2, hlen], ?_, i4⟩
    have h5 : (H ++ rest ++ [v] ++ vs) = (H ++ rest ++ v :: vs) := by simp
    rw [← h5]
    exact i3.trans (hpm.append_right vs)

/-- Batch pushpop on a valid non-empty min-heap of `n` cells keeps a valid
min-heap of the `n` largest values seen. -/
theorem npushpop_min_topn (h vs : List α) (hh : IsMinHeap h) (hn : 1 ≤ h.length) :
    IsMinHeap (C_npushpop_minheap h vs) ∧ (C_npushpop_minheap h vs).length = h.length ∧
    (C_npushpop_minheap h vs).Perm (((h ++ vs).insertionSort (· ≥ ·)).take h.length) := by
  rw [C_npushpop_minheap_eq_fold]
  obtain ⟨rest', i1, i2, i3, i4⟩ := fold_pushpop_min_inv vs h [] hh (by simp)
  refine ⟨i1, i2, ?_⟩
  have := top_prefix (fold_pushpop_min h vs) rest' (h ++ vs) (by simpa using i3) i4
  rwa [i2] at this

/-- C19: streaming top-n: for every valid Min heap `h` of length `n >= 1` and
every sequence `vs`, batch pushpop returns a valid Min heap of length `n` whose
multiset is exactly the `n` largest elements of `multiset(h) + multiset(vs)`
(the first `n` of `h ++ vs` sorted in non-increasing order); symmetrically, on a
valid Max heap `g` the Max variant keeps exactly the `n` smallest elements. -/
theorem C19_batch_pushpop_keeps_top_n (h g vs : List α) (hh : IsMinHeap h)
    (hg : IsMaxHeap g) (hhn : 1 ≤ h.length) (hgn : 1 ≤ g.length) :
    (IsMinHeap (C_npushpop_minheap h vs) ∧ (C_npushpop_minheap h vs).length = h.length ∧
      ((C_npushpop_minheap h vs : List α) : Multiset α) =
        ((((h ++ vs).insertionSort (· ≥ ·)).take h.length : List α) : Multiset α)) ∧
    (IsMaxHeap (C_npushpop_maxheap g vs) ∧ (C_npushpop_maxheap g vs).length = g.length ∧
      ((C_npushpop_maxheap g vs : List α) : Multiset α) =
        ((((g ++ vs).insertionSort (· ≤ ·)).take g.length : List α) : Multiset α)) := by
  obtain ⟨a1, a2, a3⟩ := npushpop_min_topn h vs hh hhn
  obtain ⟨b1, b2, b3⟩ := npushpop_min_topn (α := αᵒᵈ) g vs hg hgn
  rw [C_npushpop_maxheap_eq_dual]
  exact ⟨⟨a1, a2, Multiset.coe_eq_coe.mpr a3⟩, ⟨b1, b2, Multiset.coe_eq_coe.mpr b3⟩⟩

/-- Instance of C19 at the Min heap `[1, 3, 2]`, the Max heap `[3, 1, 2]` and
the stream `[5, 0, 4]`. -/
theorem C19_batch_pushpop_keeps_top_n_witness :
    (IsMinHeap ([1, 3, 2] : List Int) ∧ IsMaxHeap ([3, 1, 2] : List Int) ∧
      1 ≤ ([1, 3, 2] : List Int).length ∧ 1 ≤ ([3, 1, 2] : List Int).length) ∧
    (IsMinHeap (C_npushpop_minheap ([1, 3, 2] : List Int) [5, 0, 4]) ∧
      (C_npushpop_minheap ([1, 3, 2] : List Int) [5, 0, 4]).length =
        ([1, 3, 2] : List Int).length ∧
      ((C_npushpop_minheap ([1, 3, 2] : List Int) [5, 0, 4] : List Int) : Multiset Int) =
        ((((([1, 3, 2] : List Int) ++ [5, 0, 4]).insertionSort (· ≥ ·)).take
          ([1, 3, 2] : List Int).length : List Int) : Multiset Int)) :=
  ⟨⟨by decide, by decide, by decide, by decide⟩,
    (C19_batch_pushpop_keeps_top_n ([1, 3, 2] : List Int) [3, 1, 2] [5, 0, 4] (by decide)
      (by decide) (by decide) (by decide)).1⟩

/-! ## Strictly monotone maps commute with the min operations

`f` is a strictly monotone map into a second linear order `β`; all reads are
inside the array. -/

section Naturality

variable {β : Type} [LinearOrder β] [Inhabited β]

theorem at1_map (f : α → β) (x : List α) (p : Nat) (h1 : 1 ≤ p) (h2 : p ≤ x.length) :
    at1 (x.map f) p = f (at1 x p) := by
  unfold at1
  simp only [List.getD_eq_getElem?_getD, List.getElem?_map]
  have hlt : p - 1 < x.length := by omega
  rw [List.getElem?_eq_getElem hlt]
  rfl

theorem put1_map (f : α → β) (x : List α) (p : Nat) (v : α) :
    put1 (x.map f) p (f v) = (put1 x p v).map f := by
  unfold put1
  rw [List.map_set]

theorem swap1_map (f : α → β) (x : List α) (a b : Nat) (ha1 : 1 ≤ a) (ha2 : a ≤ x.length)
    (hb1 : 1 ≤ b) (hb2 : b ≤ x.length) :
    swap1 (x.map f) a b = (swap1 x a b).map f := by
  unfold swap1
  rw [at1_map f x a ha1 ha2, at1_map f x b hb1 hb2, put1_map, put1_map]

theorem upheap_min_loop_map (f : α → β) (hf : StrictMono f) (fuel : Nat) (x : List α)
    (pos : Nat) (hpos : pos ≤ x.length) :
    upheap_min_loop fuel (x.map f) pos = (upheap_min_loop fuel x pos).map f := by
  induction fuel generalizing x pos with
  | zero => rfl
  | succ n ih =>
    simp only [upheap_min_loop]
    by_cases hp : 1 < pos
    · rw [if_pos hp, if_pos hp, at1_map f x pos (by omega) hpos,
        at1_map f x (pos / 2) (by omega) (by omega)]
      by_cases hlt : at1 x pos < at1 x (pos / 2)
      · rw [if_pos hlt, if_pos (hf hlt),
          swap1_map f x (pos / 2) pos (by omega) (by omega) (by omega) hpos]
        exact ih _ _ (by rw [length_swap1]; omega)
      · rw [if_neg hlt, if_neg (fun h => hlt (hf.lt_iff_lt.mp h))]
    · rw [if_neg hp, if_neg hp]

theorem upheap_min_map (f : α → β) (hf : StrictMono f) (x : List α) (pos : Nat)
    (hpos : pos ≤ x.length) : upheap_min (x.map f) pos = (upheap_min x pos).map f :=
  upheap_min_loop_map f hf pos x pos hpos

theorem dn_min_choice_map (f : α → β) (hf : StrictMono f) (x : List α) (pos size : Nat)
    (hpos : 1 ≤ pos) (hsize : size ≤ x.length) :
    dn_min_choice (x.map f) pos size = dn_min_choice x pos size := by
  unfold dn_min_choice
  simp only
  by_cases h1 : 2 * pos ≤ size
  · rw [at1_map f x (2 * pos) (by omega) (by omega), at1_map f x pos hpos (by omega)]
    simp only [hf.lt_iff_lt]
    by_cases h2 : 2 * pos + 1 ≤ size
    · rw [at1_map f x (2 * pos + 1) (by omega) (by omega)]
      split
      · rw [at1_map f x (2 * pos) (by omega) (by omega)]
        simp only [hf.lt_iff_lt]
      · rw [at1_map f x pos hpos (by omega)]
        simp only [hf.lt_iff_lt]
    · have e1 : ∀ (P : Prop), ¬ (2 * pos + 1 ≤ size ∧ P) := fun P h => h2 h.1
      simp only [e1, if_false]
  · have e1 : ∀ (P : Prop), ¬ (2 * pos ≤ size ∧ P) := fun P h => h1 h.1
    have e2 : ∀ (P : Prop), ¬ (2 * pos + 1 ≤ size ∧ P) := fun P h => h1 (by omega)
    simp only [e1, e2, if_false]

theorem dnheap_min_loop_map (f : α → β) (hf : StrictMono f) (fuel : Nat) (x : List α)
    (pos size : Nat) (hpos : 1 ≤ pos) (hsize : size ≤ x.length) :
    dnheap_min_loop fuel (x.map f) pos size = (dnheap_min_loop fuel x pos size).map f := by
  induction fuel generalizing x pos with
  | zero => rfl
  | succ n ih =>
    simp only [dnheap_min_loop]
    rw [dn_min_choice_map f hf x pos size hpos hsize]
    split
    · rename_i hne
      obtain ⟨h1, h2, h3, -, -⟩ := dn_min_choice_ne x pos size hpos hne
      rw [swap1_map f x pos _ hpos (by omega) (by omega) (by omega)]
      exact ih _ _ (by omega) (by rw [length_swap1]; exact hsize)
    · rfl

theorem dnheap_min_map (f : α → β) (hf : StrictMono f) (x : List α) (pos size : Nat)
    (hpos : 1 ≤ pos) (hsize : size ≤ x.length) :
    dnheap_min (x.map f) pos size = (dnheap_min x pos size).map f :=
  dnheap_min_loop_map f hf size x pos size hpos hsize

theorem minheap_loop_map (f : α → β) (hf : StrictMono f) (n i : Nat) (x : List α)
    (hn : n ≤ x.length) :
    minheap_loop n i (x.map f) = (minheap_loop n i x).map f := by
  induction i generalizing x with
  | zero => rfl
  | succ i ih =>
    simp only [minheap_loop]
    rw [dnheap_min_map f hf x (i + 1) n (by omega) hn]
    exact ih _ (by rw [length_dnheap_min]; exact hn)

theorem C_minheap_map (f : α → β) (hf : StrictMono f) (x : List α) :
    C_minheap (x.map f) = (C_minheap x).map f := by
  unfold C_minheap
  simp only [List.length_map]
  split
  · rfl
  · exact minheap_loop_map f hf _ _ x (le_refl _)

/-- The cells of the push buffer that are not yet written do not matter. -/
theorem push_min_loop_filler (n : Nat) (vals : List α) (i : Nat) (H rest rest' : List α)
    (hH : H.length = n + i) (h1 : rest.length = vals.length)
    (h2 : rest'.length = vals.length) :
    push_min_loop n vals i (H ++ rest) = push_min_loop n vals i (H ++ rest') := by
  induction vals generalizing i H rest rest' with
  | nil =>
    rw [List.length_eq_zero.mp h1, List.length_eq_zero.mp h2]
  | cons v vs ih =>
    cases rest with
    | nil => simp at h1
    | cons d rest =>
      cases rest' with
      | nil => simp at h2
      | cons d' rest' =>
        simp only [push_min_loop]
        have e : n + i + 1 = H.length + 1 := by omega
        rw [e, put1_append_cons, put1_append_cons,
          upheap_min_append (H ++ [v]) rest _ (by simp),
          upheap_min_append (H ++ [v]) rest' _ (by simp)]
        exact ih (i + 1) _ rest rest'
          (by rw [length_upheap_min, List.length_append, List.length_singleton]; omega)
          (by simpa using h1) (by simpa using h2)

theorem push_min_loop_map (f : α → β) (hf : StrictMono f) (n : Nat) (vals : List α) (i : Nat)
    (x : List α) (hx : x.length = n + i + vals.length) :
    push_min_loop n (vals.map f) i (x.map f) = (push_min_loop n vals i x).map f := by
  induction vals generalizing i x with
  | nil => rfl
  | cons v vs ih =>
    simp only [List.map_cons, push_min_loop]
    simp only [List.length_cons] at hx
    rw [put1_map, upheap_min_map f hf _ _ (by rw [length_put1]; omega)]
    exact ih (i + 1) _ (by rw [length_upheap_min, length_put1]; omega)

theorem C_push_minheap_map (f : α → β) (hf : StrictMono f) (h vs : List α) :
    C_push_minheap (h.map f) (vs.map f) = (C_push_minheap h vs).map f := by
  unfold C_push_minheap
  simp only [List.length_map]
  rw [push_min_loop_filler h.length (vs.map f) 0 (h.map f) (List.replicate vs.length default)
    (List.replicate vs.length (f default)) (by simp) (by simp) (by simp)]
  have e : h.map f ++ List.replicate vs.length (f default) =
      (h ++ List.replicate vs.length default).map f := by simp
  rw [e]
  exact push_min_loop_map f hf h.length vs 0 _ (by simp)

/-- The cells of `val_data` that are not yet written do not matter. -/
theorem pop_min_loop_filler (n r i : Nat) (E F F' W : List α) (hE : E.length = i)
    (h1 : F.length = r) (h2 : F'.length = r) :
    pop_min_loop n r i (E ++ F, W) = pop_min_loop n r i (E ++ F', W) := by
  induction r generalizing i E F F' W with
  | zero =>
    rw [List.length_eq_zero.mp h1, List.length_eq_zero.mp h2]
  | succ r ih =>
    cases F with
    | nil => simp at h1
    | cons d F =>
      cases F' with
      | nil => simp at h2
      | cons d' F' =>
        simp only [pop_min_loop]
        have e1 : (E ++ d :: F).set i (at1 W 1) = (E ++ [at1 W 1]) ++ F := by
          rw [List.set_append_right _ _ (by omega)]; simp [hE]
        have e2 : (E ++ d' :: F').set i (at1 W 1) = (E ++ [at1 W 1]) ++ F' := by
          rw [List.set_append_right _ _ (by omega)]; simp [hE]
        rw [e1, e2]
        exact ih (i + 1) _ F F' _ (by simp [hE]) (by simpa using h1) (by simpa using h2)

theorem pop_min_loop_map (f : α → β) (hf : StrictMono f) (n r i : Nat) (vd w : List α)
    (hw : w.length = n) (hir : i + r ≤ n) :
    pop_min_loop n r i (vd.map f, w.map f) =
      ((pop_min_loop n r i (vd, w)).1.map f, (pop_min_loop n r i (vd, w)).2.map f) := by
  induction r generalizing i vd w with
  | zero => rfl
  | succ r ih =>
    simp only [pop_min_loop]
    rw [at1_map f w 1 (le_refl _) (by omega), at1_map f w (n - i) (by omega) (by omega),
      put1_map, dnheap_min_map f hf _ 1 _ (le_refl _) (by rw [length_put1]; omega),
      ← List.map_set]
    exact ih (i + 1) _ _ (by rw [length_dnheap_min, length_put1]; exact hw) (by omega)

theorem pop_count_le (n : Nat) (count : Int) (k : Nat) (h : pop_count n count = some k) :
    k ≤ n := by
  unfold pop_count at h
  split at h
  · simp at h
  · split at h
    · simp at h; omega
    · simp at h; omega

theorem C_pop_minheap_map (f : α → β) (hf : StrictMono f) (h : List α) (count : Int) :
    C_pop_minheap (h.map f) count =
      (C_pop_minheap h count).map (fun s => (s.1.map f, s.2.map f)) := by
  unfold C_pop_minheap
  simp only [List.length_map]
  cases hk : pop_count h.length count with
  | none => rfl
  | some k =>
    simp only [Option.map_some']
    have hkn := pop_count_le _ _ _ hk
    have e1 := pop_min_loop_filler h.length k 0 [] (List.replicate k (default : β))
      (List.replicate k (f default)) (h.map f) rfl (by simp) (by simp)
    simp only [List.nil_append] at e1
    have e2 : List.replicate k (f (default : α)) = (List.replicate k (default : α)).map f := by
      simp
    rw [e1, e2, pop_min_loop_map f hf h.length k 0 _ h rfl (by omega)]
    simp only [List.map_take]

theorem max_leaf_loop_map (f : α → β) (hf : StrictMono f) (x : List α) (r i : Nat) (ml : α)
    (mp : Nat) (hi : 1 ≤ i) (hir : i + r ≤ x.length + 1) :
    max_leaf_loop (x.map f) r i (f ml, mp) =
      (f (max_leaf_loop x r i (ml, mp)).1, (max_leaf_loop x r i (ml, mp)).2) := by
  induction r generalizing i ml mp with
  | zero => rfl
  | succ r ih =>
    simp only [max_leaf_loop]
    rw [at1_map f x i hi (by omega)]
    by_cases hgt : at1 x i > ml
    · rw [if_pos hgt, if_pos (hf hgt)]
      exact ih (i + 1) _ _ (by omega) (by omega)
    · rw [if_neg hgt, if_neg (fun h => hgt (hf.lt_iff_lt.mp h))]
      exact ih (i + 1) _ _ (by omega) (by omega)

theorem max_leaf_scan_map (f : α → β) (hf : StrictMono f) (x : List α) (hn : 1 ≤ x.length) :
    max_leaf_scan (x.map f) = (f (max_leaf_scan x).1, (max_leaf_scan x).2) := by
  unfold max_leaf_scan
  simp only [List.length_map]
  rw [at1_map f x _ (by omega) (by omega)]
  exact max_leaf_loop_map f hf x _ _ _ _ (by omega) (by omega)

theorem C_insert_minheap_map (f : α → β) (hf : StrictMono f) (h : List α) (v : α) :
    C_insert_minheap (h.map f) (f v) = (C_insert_minheap h v).map f := by
  unfold C_insert_minheap
  simp only [List.length_map]
  by_cases hn : h.length = 0
  · rw [if_pos hn, if_pos hn]
  · rw [if_neg hn, if_neg hn, max_leaf_scan_map f hf h (by omega)]
    obtain ⟨h1, h2, -, -⟩ := max_leaf_scan_spec h (by omega)
    simp only
    by_cases hv : v < (max_leaf_scan h).1
    · rw [if_pos hv, if_pos (hf hv), put1_map,
        upheap_min_map f hf _ _ (by rw [length_put1]; exact h2)]
    · rw [if_neg hv, if_neg (fun hlt => hv (hf.lt_iff_lt.mp hlt))]

theorem C_pushpop_minheap_map (f : α → β) (hf : StrictMono f) (h : List α) (v : α) :
    C_pushpop_minheap (h.map f) (f v) =
      (f (C_pushpop_minheap h v).1, (C_pushpop_minheap h v).2.map f) := by
  unfold C_pushpop_minheap
  simp only [List.length_map]
  by_cases hn : h.length = 0
  · rw [if_pos hn, if_pos hn]
  · rw [if_neg hn, if_neg hn, at1_map f h 1 (le_refl _) (by omega)]
    by_cases hv : v ≤ at1 h 1
    · rw [if_pos hv, if_pos (hf.le_iff_le.mpr hv)]
    · rw [if_neg hv, if_neg (fun hle => hv (hf.le_iff_le.mp hle)), put1_map,
        dnheap_min_map f hf _ 1 _ (le_refl _) (by rw [length_put1])]

theorem C_poppush_minheap_map (f : α → β) (hf : StrictMono f) (h : List α) (v : α) :
    C_poppush_minheap (h.map f) (f v) =
      (f (C_poppush_minheap h v).1, (C_poppush_minheap h v).2.map f) := by
  unfold C_poppush_minheap
  simp only [List.length_map]
  by_cases hn : h.length = 0
  · rw [if_pos hn, if_pos hn]
  · rw [if_neg hn, if_neg hn, at1_map f h 1 (le_refl _) (by omega), put1_map,
      dnheap_min_map f hf _ 1 _ (le_refl _) (by rw [length_put1])]

theorem fold_pushpop_min_map (f : α → β) (hf : StrictMono f) (h vs : List α) :
    fold_pushpop_min (h.map f) (vs.map f) = (fold_pushpop_min h vs).map f := by
  unfold fold_pushpop_min
  induction vs generalizing h with
  | nil => rfl
  | cons v vs ih =>
    simp only [List.map_cons, List.foldl_cons]
    rw [C_pushpop_minheap_map f hf h v]
    exact ih _

theorem fold_poppush_min_map (f : α → β) (hf : StrictMono f) (h vs : List α) :
    fold_poppush_min (h.map f) (vs.map f) = (fold_poppush_min h vs).map f := by
  unfold fold_poppush_min
  induction vs generalizing h with
  | nil => rfl
  | cons v vs ih =>
    simp only [List.map_cons, List.foldl_cons]
    rw [C_poppush_minheap_map f hf h v]
    exact ih _

theorem C_npushpop_minheap_map (f : α → β) (hf : StrictMono f) (h vs : List α) :
    C_npushpop_minheap (h.map f) (vs.map f) = (C_npushpop_minheap h vs).map f := by
  rw [C_npushpop_minheap_eq_fold, C_npushpop_minheap_eq_fold]
  exact fold_pushpop_min_map f hf h vs

theorem C_npoppush_minheap_map (f : α → β) (hf : StrictMono f) (h vs : List α) :
    C_npoppush_minheap (h.map f) (vs.map f) = (C_npoppush_minheap h vs).map f := by
  rw [C_npoppush_minheap_eq_fold, C_npoppush_minheap_eq_fold]
  exact fold_poppush_min_map f hf h vs

end Naturality

/-! ## Min/Max duality through an order-reversing negation -/

/-- An order-reversing map `neg` is a strictly monotone map into the reversed
order. -/
theorem neg_strictMono_dual (neg : α → α) (hanti : ∀ a b, a < b → neg b < neg a) :
    @StrictMono α αᵒᵈ _ _ neg :=
  fun a b hab => hanti a b hab

theorem map_neg_neg (neg : α → α) (hinv : ∀ a, neg (neg a) = a) (xs : List α) :
    @List.map α αᵒᵈ neg (xs.map neg) = xs := by
  have h : (xs.map neg).map neg = xs := by
    rw [List.map_map]
    have : (neg ∘ neg) = id := by
      funext a
      exact hinv a
    rw [this]
    exact List.map_id xs
  exact h

/-- C20: Min/Max duality: over a linearly ordered element type with an
order-reversing involutive negation `neg` (as `-` on the integers), every Max
operation equals the Min operation conjugated by element-wise negation:
`build(xs, Max) = map neg (build(map neg xs, Min))`, and likewise sift-up,
sift-down (same `pos` and `size`, inside the array), push, pop (same `k`,
negating the extracted values and the residual), bounded insert, pushpop,
poppush and the two batch operations, on the negated heap and the negated value
arguments. -/
theorem C20_min_max_duality (neg : α → α) (hanti : ∀ a b, a < b → neg b < neg a)
    (hinv : ∀ a, neg (neg a) = a) (xs vs : List α) (v : α) (k : Int) (pos size : Nat) :
    C_maxheap xs = (C_minheap (xs.map neg)).map neg ∧
    (pos ≤ xs.length → upheap_max xs pos = (upheap_min (xs.map neg) pos).map neg) ∧
    (1 ≤ pos → size ≤ xs.length →
      dnheap_max xs pos size = (dnheap_min (xs.map neg) pos size).map neg) ∧
    C_push_maxheap xs vs = (C_push_minheap (xs.map neg) (vs.map neg)).map neg ∧
    C_pop_maxheap xs k =
      (C_pop_minheap (xs.map neg) k).map (fun s => (s.1.map neg, s.2.map neg)) ∧
    C_insert_maxheap xs v = (C_insert_minheap (xs.map neg) (neg v)).map neg ∧
    C_pushpop_maxheap xs v =
      (neg (C_pushpop_minheap (xs.map neg) (neg v)).1,
        (C_pushpop_minheap (xs.map neg) (neg v)).2.map neg) ∧
    C_poppush_maxheap xs v =
      (neg (C_poppush_minheap (xs.map neg) (neg v)).1,
        (C_poppush_minheap (xs.map neg) (neg v)).2.map neg) ∧
    C_npushpop_maxheap xs vs = (C_npushpop_minheap (xs.map neg) (vs.map neg)).map neg ∧
    C_npoppush_maxheap xs vs = (C_npoppush_minheap (xs.map neg) (vs.map neg)).map neg := by
  have hf := neg_strictMono_dual neg hanti
  have hxs := map_neg_neg neg hinv xs
  have hvs := map_neg_neg neg hinv vs
  have hv : neg (neg v) = v := hinv v
  refine ⟨?_, ?_, ?_, ?_, ?_, ?_, ?_, ?_, ?_, ?_⟩
  · rw [C_maxheap_eq_dual]
    have h := C_minheap_map (β := αᵒᵈ) neg hf (xs.map neg)
    rw [hxs] at h
    exact h
  · intro hp
    rw [upheap_max_eq_dual]
    have h := upheap_min_map (β := αᵒᵈ) neg hf (xs.map neg) pos (by simpa using hp)
    rw [hxs] at h
    exact h
  · intro hp hs
    rw [dnheap_max_eq_dual]
    have h := dnheap_min_map (β := αᵒᵈ) neg hf (xs.map neg) pos size hp (by simpa using hs)
    rw [hxs] at h
    exact h
  · rw [C_push_maxheap_eq_dual]
    have h := C_push_minheap_map (β := αᵒᵈ) neg hf (xs.map neg) (vs.map neg)
    rw [hxs, hvs] at h
    exact h
  · rw [C_pop_maxheap_eq_dual]
    have h := C_pop_minheap_map (β := αᵒᵈ) neg hf (xs.map neg) k
    rw [hxs] at h
    exact h
  · rw [C_insert_maxheap_eq_dual]
    have h := C_insert_minheap_map (β := αᵒᵈ) neg hf (xs.map neg) (neg v)
    rw [hxs] at h
    simp only [hv] at h
    exact h
  · rw [C_pushpop_maxheap_eq_dual]
    have h := C_pushpop_minheap_map (β := αᵒᵈ) neg hf (xs.map neg) (neg v)
    rw [hxs] at h
    simp only [hv] at h
    exact h
  · rw [C_poppush_maxheap_eq_dual]
    have h := C_poppush_minheap_map (β := αᵒᵈ) neg hf (xs.map neg) (neg v)
    rw [hxs] at h
    simp only [hv] at h
    exact h
  · rw [C_npushpop_maxheap_eq_dual]
    have h := C_npushpop_minheap_map (β := αᵒᵈ) neg hf (xs.map neg) (vs.map neg)
    rw [hxs, hvs] at h
    exact h
  · rw [C_npoppush_maxheap_eq_dual]
    have h := C_npoppush_minheap_map (β := αᵒᵈ) neg hf (xs.map neg) (vs.map neg)
    rw [hxs, hvs] at h
    exact h

/-- Instance of C20 at the integers with `-`, on the array `[5, 3, 8, 1]`: build,
sift-up from the position `2`, and sift-down from the position `1` with the
size `3`. -/
theorem C20_min_max_duality_witness :
    ((∀ a b : Int, a < b → -b < -a) ∧ (∀ a : Int, - -a = a) ∧
      2 ≤ ([5, 3, 8, 1] : List Int).length ∧ 1 ≤ 1 ∧ 3 ≤ ([5, 3, 8, 1] : List Int).length) ∧
    C_maxheap ([5, 3, 8, 1] : List Int) =
      (C_minheap (([5, 3, 8, 1] : List Int).map Neg.neg)).map Neg.neg ∧
    upheap_max ([5, 3, 8, 1] : List Int) 2 =
      (upheap_min (([5, 3, 8, 1] : List Int).map Neg.neg) 2).map Neg.neg ∧
    dnheap_max ([5, 3, 8, 1] : List Int) 1 3 =
      (dnheap_min (([5, 3, 8, 1] : List Int).map Neg.neg) 1 3).map Neg.neg :=
  ⟨⟨fun _ _ h => Int.neg_lt_neg h, fun a => Int.neg_neg a, by decide, by decide, by decide⟩,
    (C20_min_max_duality (Neg.neg : Int → Int) (fun _ _ h => Int.neg_lt_neg h)
      (fun a => Int.neg_neg a) [5, 3, 8, 1] [] 0 0 2 3).1,
    (C20_min_max_duality (Neg.neg : Int → Int) (fun _ _ h => Int.neg_lt_neg h)
      (fun a => Int.neg_neg a) [5, 3, 8, 1] [] 0 0 2 3).2.1 (by decide),
    (C20_min_max_duality (Neg.neg : Int → Int) (fun _ _ h => Int.neg_lt_neg h)
      (fun a => Int.neg_neg a) [5, 3, 8, 1] [] 0 0 1 3).2.2.1 (by decide) (by decide)⟩

end Rheap
